import Mathlib

/-!
Verification of the skx1 relationship-scoring core.

JavaScript values are modelled as follows:
* strings are lists of characters (`Str`); Unicode NFKD normalization is
  modelled as the identity (all inputs of interest are ASCII);
* numbers are exact rationals (`ℚ`) in the pure scoring library, and real
  numbers (`ℝ`) in the cross-chunk matcher, whose cosine similarity uses
  `Math.sqrt`;
* `Array.prototype.sort` with a numeric comparator is modelled by a stable
  insertion sort (`sortDescBy`), matching the ECMAScript requirement that
  `sort` is stable: ties keep their original relative order;
* a JavaScript regular-expression replacement of a whole run of characters
  by a single space is modelled character by character wherever the result
  is immediately split on whitespace runs, which yields the same output.
-/

set_option maxRecDepth 10000

namespace Skx

/-- JavaScript strings are modelled as lists of characters. -/
abbrev Str := List Char

/-- Character class of the JavaScript `\s` (whitespace) for ASCII inputs. -/
def isWsC (c : Char) : Bool :=
  c = ' ' || c = '\t' || c = '\n' || c = '\r' || c = '\x0B' || c = '\x0C'

/-- Lowercase ASCII letter test, via code points. -/
def isLowC (c : Char) : Bool := 97 ≤ c.toNat && c.toNat ≤ 122

/-- ASCII digit test, via code points. -/
def isDigC (c : Char) : Bool := 48 ≤ c.toNat && c.toNat ≤ 57

/-- Characters kept by the tag regex `[a-z0-9\-]` of `kebabize`. -/
def isKeepT (c : Char) : Bool := isLowC c || isDigC c || c = '-'

/-- Model of `String.prototype.toLowerCase` on ASCII characters. -/
def toLowerJS (c : Char) : Char :=
  if 65 ≤ c.toNat && c.toNat ≤ 90 then Char.ofNat (c.toNat + 32) else c

/-- Collapse every run of repeated occurrences of `tgt` to a single
occurrence (the model of a `/x{2,}/g → "x"` replacement). -/
def collapseRuns (tgt : Char) (l : Str) : Str :=
  l.foldr (fun c acc => if c = tgt ∧ acc.head? = some tgt then acc else c :: acc) []

/-- Drop the trailing run of characters satisfying `p`. -/
def dropTrailing (p : Char → Bool) : Str → Str
  | [] => []
  | c :: cs =>
    let r := dropTrailing p cs
    if p c ∧ r = [] then [] else c :: r

/-- Trim characters satisfying `p` from both ends (model of `trim` and of
the `^x+|x+$` replacement). -/
def trimBy (p : Char → Bool) (l : Str) : Str := dropTrailing p (l.dropWhile p)

/-- Split into maximal runs of characters not satisfying `p`; auxiliary
accumulator form. -/
def splitByAux (p : Char → Bool) (l : Str) : List Str :=
  l.foldr
    (fun c acc =>
      if p c then [] :: acc
      else
        match acc with
        | [] => [[c]]
        | w :: ws => (c :: w) :: ws)
    []

/-- Split on characters satisfying `p`, dropping empty pieces: the model of
`trim().split(regex).filter(Boolean)`. -/
def splitBy (p : Char → Bool) (l : Str) : List Str :=
  (splitByAux p l).filter (fun w => w ≠ [])

/-- Join words with single hyphens (model of `Array.prototype.join("-")`). -/
def joinHyphen : List Str → Str
  | [] => []
  | w :: ws =>
    match ws with
    | [] => w
    | _ :: _ => w ++ '-' :: joinHyphen ws

/-! ## `src/web/src/lib/tags.ts` -/

/-- Tag normalization step `kebabize` of `tags.ts`: lowercase, NFKD
(identity on ASCII), replace runs outside `[a-z0-9\-\s]` by a space,
replace underscore runs by a space, split on whitespace, join with `-`,
collapse repeated hyphens, trim leading and trailing hyphens. -/
def kebabize (s : Str) : Str :=
  let lowered := s.map toLowerJS
  let replaced := lowered.map (fun c => if isKeepT c || isWsC c then c else ' ')
  let spaced := replaced.map (fun c => if c = '_' then ' ' else c)
  let words := splitBy isWsC spaced
  let out := joinHyphen words
  trimBy (fun c => c = '-') (collapseRuns '-' out)

/-- Hyphen-separated word count of a tag: `s.split('-').filter(Boolean).length`. -/
def tagWords (s : Str) : Nat := (splitBy (fun c => c = '-') s).length

/-- The canonical-synonym table `CANON_MAP` of `tags.ts`. -/
def CANON_MAP : List (Str × Str) :=
  [ (['j','s'], ['j','a','v','a','s','c','r','i','p','t'])
  , (['n','o','d','e'], ['n','o','d','e','j','s'])
  , (['n','o','d','e','-','j','s'], ['n','o','d','e','j','s'])
  , (['n','o','d','e','j','s','-','s','t','r','e','a','m'],
     ['n','o','d','e','j','s','-','s','t','r','e','a','m','s'])
  , (['t','s'], ['t','y','p','e','s','c','r','i','p','t'])
  , (['r','e','a','c','t','j','s'], ['r','e','a','c','t'])
  , (['n','e','x','t','j','s'], ['n','e','x','t','.','j','s'])
  , (['p','o','w','e','r',' ','r','a','n','g','e','r','s'],
     ['p','o','w','e','r','-','r','a','n','g','e','r','s']) ]

/-- First-match association lookup, the model of a record field access. -/
def assocGet : List (Str × Str) → Str → Option Str
  | [], _ => none
  | (k, v) :: r, s => if k = s then some v else assocGet r s

/-- `canonicalize` of `tags.ts`: rewrite via `CANON_MAP` when present. -/
def canonicalize (s : Str) : Str :=
  match assocGet CANON_MAP s with
  | some v => v
  | none => s

/-- The `STOPLIST` of `tags.ts`. -/
def STOPLIST : List Str :=
  [ ['h','e','l','l','o'], ['q','u','e','s','t','i','o','n']
  , ['e','x','a','m','p','l','e'], ['e','x','a','m','p','l','e','s']
  , ['s','i','m','p','l','e'], ['s','i','m','p','l','e','_','c','o','d','e']
  , ['g','r','e','e','t','i','n','g'], ['p','u','r','p','o','s','e']
  , ['n','o','t','e'], ['n','o','t','e','s'], ['m','i','s','c']
  , ['g','e','n','e','r','a','l'], ['r','a','n','d','o','m']
  , ['t','e','s','t'], ['t','o','d','o'] ]

/-- The loop body of `normalizeTags`: kebabize, drop empty results, drop
tags of more than 3 hyphen-words, canonicalize, drop stop-listed tags,
deduplicate (first seen wins, tracked by `seen`). -/
def normTagsGo : List Str → List Str → List Str
  | [], _ => []
  | t :: ts, seen =>
    let s := kebabize t
    if s = [] then normTagsGo ts seen
    else if 3 < tagWords s then normTagsGo ts seen
    else
      let s2 := canonicalize s
      if s2 ∈ STOPLIST then normTagsGo ts seen
      else if s2 ∈ seen then normTagsGo ts seen
      else s2 :: normTagsGo ts (s2 :: seen)

/-- `normalizeTags` of `tags.ts` (non-string array members, dropped by the
source, are not representable in the model); the result is capped at 10. -/
def normalizeTags (tags : List Str) : List Str := (normTagsGo tags []).take 10

section Scoring

variable {K : Type} [LinearOrderedField K]

/-- `computeTagJaccard` of `tags.ts`: plain Jaccard over the kebabized tag
sets (`Set` deduplicates, so `List.dedup`); 0 when both sets are empty and
when the union is empty. -/
def computeTagJaccard (a b : List Str) : K :=
  let A := (a.map kebabize).dedup
  let B := (b.map kebabize).dedup
  if A.length = 0 ∧ B.length = 0 then 0
  else
    let inter := (A.filter (fun t => t ∈ B)).length
    let union := A.length + B.length - inter
    if union = 0 then 0 else (inter : K) / (union : K)

/-- `computeTagBM25` of `tags.ts`: binary-presence BM25 over kebabized tag
sets, document length floored at 1 (`d.length || 1`), heuristic `avgdl = 6`,
per-tag idf defaulting to 1. -/
def computeTagBM25 (q d : List Str) (idf : Option (List (Str × K)))
    (k1v bv : Option K) : K :=
  let k1 := k1v.getD (12 / 10)
  let b := bv.getD (3 / 4)
  let qs := (q.map kebabize).dedup
  let ds := (d.map kebabize).dedup
  let dl : K := if ds.length = 0 then 1 else (ds.length : K)
  let avgdl : K := 6
  qs.foldl
    (fun score t =>
      if t ∈ ds then
        let idf_t := ((idf.getD []).lookup t).getD 1
        let denom := 1 + k1 * (1 - b + b * (dl / avgdl))
        score + idf_t * ((1 * (k1 + 1)) / denom)
      else score)
    0

/-- `computeTagScore` of `tags.ts`: `0.7·jaccard + 0.3·bm25/(bm25+3)`,
clamped to `[0,1]`. -/
def computeTagScore (a b : List Str) (idf : Option (List (Str × K))) : K :=
  let j : K := computeTagJaccard a b
  let bm25 : K := computeTagBM25 a b idf none none
  let bm25n := bm25 / (bm25 + 3)
  let score := (7 / 10 : K) * j + (3 / 10 : K) * bm25n
  max 0 (min 1 score)

/-! ## Entity utilities (`src/unnamed/part_001`) -/

/-- `normalizeEntityName`: lowercase, trim, NFKD (identity on ASCII),
replace whitespace and underscore runs by a hyphen, replace every other
character outside `[a-z0-9\-]` by a hyphen, collapse repeated hyphens, trim
hyphens at both ends. -/
def normalizeEntityName (s : Str) : Str :=
  let lowered := trimBy isWsC (s.map toLowerJS)
  let t1 := lowered.map (fun c => if c = '_' || isWsC c then '-' else c)
  let t2 := t1.map (fun c => if isLowC c || isDigC c || c = '-' then c else '-')
  trimBy (fun c => c = '-') (collapseRuns '-' t2)

/-- A JavaScript `Map<string, number>` in insertion order: an association
list whose keys are distinct by construction. -/
abbrev EMap (K : Type) := List (Str × K)

/-- Map lookup with the `?? 0` default used by the entity metrics. -/
def eget : EMap K → Str → K
  | [], _ => 0
  | (k1, w) :: r, k => if k1 = k then w else eget r k

/-- `map.set(key, (map.get(key) ?? 0) + w)`: accumulate onto an existing
key (which keeps its insertion position) or append a fresh one. -/
def esetAdd : EMap K → Str → K → EMap K
  | [], k, w => [(k, w)]
  | (k1, w1) :: r, k, w =>
    if k1 = k then (k1, w1 + w) :: r else (k1, w1) :: esetAdd r k w

/-- One raw entity record `{ entity, weight? }`; an absent or non-finite
weight is modelled by `none` (the source replaces it by 1). -/
structure EntIn (K : Type) where
  entity : Str
  weight : Option K

/-- `toEntityMap` of the entity utilities: normalize each name, skip empty
keys, floor each weight at 0 (default 1), and accumulate duplicates. -/
def toEntityMap (list : List (EntIn K)) : EMap K :=
  list.foldl
    (fun m e =>
      let key := normalizeEntityName e.entity
      if key = [] then m else esetAdd m key (max 0 (e.weight.getD 1)))
    []

/-- Key set of the union of two maps, in discovery order (`new Set([...A.keys(), ...B.keys()])`). -/
def wjKeys (A B : EMap K) : List Str := ((A.map Prod.fst) ++ (B.map Prod.fst)).dedup

/-- Sum of `min` of the two weights over the union of keys. -/
def wjInter (A B : EMap K) : K := ((wjKeys A B).map (fun k => min (eget A k) (eget B k))).sum

/-- Sum of `max` of the two weights over the union of keys. -/
def wjUnion (A B : EMap K) : K := ((wjKeys A B).map (fun k => max (eget A k) (eget B k))).sum

/-- `weightedJaccard` of the entity utilities: 0 when both maps are empty,
0 when the union weight is 0, else `Σ min / Σ max`. -/
def weightedJaccard (A B : EMap K) : K :=
  if A = [] ∧ B = [] then 0
  else if wjUnion A B = 0 then 0 else wjInter A B / wjUnion A B

/-- Stable descending insertion of `a` into `l`, ordered by `f`: `a` is
placed before the first element whose key is not greater than `f a`, so an
element inserted later (originally earlier) precedes equal keys. -/
def ordInsertDesc {α β : Type} [LinearOrder β] (f : α → β) (a : α) : List α → List α
  | [] => [a]
  | b :: l => if f b ≤ f a then a :: b :: l else b :: ordInsertDesc f a l

/-- Stable sort, descending by `f`: the model of the ECMAScript stable
`Array.prototype.sort((x, y) => f(y) - f(x))`. -/
def sortDescBy {α β : Type} [LinearOrder β] (f : α → β) : List α → List α
  | [] => []
  | a :: l => ordInsertDesc f a (sortDescBy f l)

/-- The shared-key candidate list of `topIntersect`: keys of the union, in
discovery order, whose `min` weight is positive, paired with that weight. -/
def topIntersectCands (A B : EMap K) : List (Str × K) :=
  (wjKeys A B).filterMap
    (fun k =>
      let s := min (eget A k) (eget B k)
      if 0 < s then some (k, s) else none)

/-- `topIntersect` of the entity utilities: shared keys sorted descending
by `min` weight (stable sort), truncated to `limit`. -/
def topIntersect (A B : EMap K) (limit : Nat) : List Str :=
  ((sortDescBy (fun p => p.2) (topIntersectCands A B)).take limit).map (fun p => p.1)

/-! ## `src/web/src/lib/linkScoring.ts` -/

/-- Caller-supplied structural signals (optional fields). -/
structure StructuralSignals (K : Type) where
  reference_score : Option K := none
  temporal_score : Option K := none
  session_score : Option K := none

/-- The semantic aggregation method `'mean' | 'max'`. -/
inductive Agg | mean | max
deriving DecidableEq

/-- `FeatureInputs` of `linkScoring.ts`. -/
structure FeatureInputs (K : Type) where
  top5_cosines : List K
  entitiesA : List (EntIn K)
  entitiesB : List (EntIn K)
  tagsA : List Str
  tagsB : List Str
  tagIdf : Option (List (Str × K)) := none
  structural : Option (StructuralSignals K) := none
  aggregate : Option Agg := none

/-- `FeatureScores` of `linkScoring.ts`. -/
structure FeatureScores (K : Type) where
  semantic : K
  entity_score : K
  tag_score : K
  reference_score : K
  temporal_score : K
  session_score : K

/-- `clamp01` of `linkScoring.ts`: `Math.max(0, Math.min(1, x))`. -/
def clamp01 (x : K) : K := max 0 (min 1 x)

/-- `aggregateSemantic` of `linkScoring.ts`. The `Number.isFinite` filter
is the identity in this model (every `K` value is finite); an empty list
yields 0; `max` returns the plain maximum; `mean` clamps the mean. -/
def aggregateSemantic (top : List K) (method : Agg) : K :=
  match top with
  | [] => 0
  | v :: vs =>
    if method = Agg.max then vs.foldl max v
    else clamp01 ((v :: vs).sum / ((v :: vs).length : K))

/-- `computeEntityScore` of `linkScoring.ts`. -/
def computeEntityScore (ea eb : List (EntIn K)) : K :=
  weightedJaccard (toEntityMap ea) (toEntityMap eb)

/-- `computeFeatureScores` of `linkScoring.ts`. -/
def computeFeatureScores (input : FeatureInputs K) : FeatureScores K :=
  { semantic := aggregateSemantic input.top5_cosines (input.aggregate.getD Agg.mean)
  , entity_score := computeEntityScore input.entitiesA input.entitiesB
  , tag_score := computeTagScore input.tagsA input.tagsB input.tagIdf
  , reference_score := clamp01 (((input.structural.getD {}).reference_score).getD 0)
  , temporal_score := clamp01 (((input.structural.getD {}).temporal_score).getD 0)
  , session_score := clamp01 (((input.structural.getD {}).session_score).getD 0) }

/-- `finalLinkScore` of `linkScoring.ts`: the weighted sum, halved by the
guardrail when both semantic and entity evidence are weak, then clamped. -/
def finalLinkScore (f : FeatureScores K) : K :=
  let score := (6 / 10 : K) * f.semantic + (2 / 10 : K) * f.entity_score
    + (15 / 100 : K) * f.tag_score
    + (5 / 100 : K) * (f.reference_score + f.temporal_score + f.session_score)
  let score := if f.semantic < 35 / 100 ∧ f.entity_score < 2 / 10 then score * (5 / 10 : K)
    else score
  clamp01 score

/-- `LinkDecision` of `linkScoring.ts`. -/
inductive LinkDecision | hard | soft | none
deriving DecidableEq

/-- `classifyLink` of `linkScoring.ts`. -/
def classifyLink (score : K) : LinkDecision :=
  if score ≥ 55 / 100 then LinkDecision.hard
  else if score ≥ 45 / 100 then LinkDecision.soft
  else LinkDecision.none

/-- `CandidateExplain` of `linkScoring.ts`. -/
structure CandidateExplain (K : Type) where
  cosines : List K
  shared_entities : List Str
  shared_tags : List Str

/-- `tagIntersection` of `linkScoring.ts`: iterate the deduplicated first
set, keeping members of the second. -/
def tagIntersection (a b : List Str) : List Str :=
  a.dedup.filter (fun t => t ∈ b.dedup)

/-- `buildExplain` of `linkScoring.ts`. -/
def buildExplain (input : FeatureInputs K) : CandidateExplain K :=
  { cosines := input.top5_cosines.take 3
  , shared_entities := topIntersect (toEntityMap input.entitiesA) (toEntityMap input.entitiesB) 5
  , shared_tags := tagIntersection input.tagsA input.tagsB }

end Scoring

/-! ## `src/web/src/lib/chunking.ts` -/

/-- `Chunk` of `chunking.ts`. -/
structure Chunk where
  ord : Nat
  text : Str
  startIndex : Nat
  endIndex : Nat
deriving DecidableEq

/-- `ChunkingOptions` of `chunking.ts`. Option values are modelled as
naturals: the source floors them and clamps them from below with
`Math.max`, so every reachable parameter combination arises from natural
settings. -/
structure ChunkingOptions where
  targetTokens : Option Nat := none
  overlapTokens : Option Nat := none
  maxCharsPerChunk : Option Nat := none

/-- Whitespace normalization `input.replace(/\s+/g, ' ').trim()`: every
whitespace character becomes a space, runs collapse to one space, and the
ends are trimmed. -/
def normalizeWs (input : Str) : Str :=
  trimBy isWsC (collapseRuns ' ' (input.map (fun c => if isWsC c then ' ' else c)))

/-- `text.lastIndexOf(pat, i)` scanned downward from `i`: the largest
starting position `≤ i` of an occurrence of `pat`, or `-1`. -/
def lastIndexOfFrom (text pat : Str) : Nat → Int
  | 0 => if pat.isPrefixOf text then 0 else -1
  | i + 1 =>
    if pat.isPrefixOf (text.drop (i + 1)) then ((i + 1 : Nat) : Int)
    else lastIndexOfFrom text pat i

/-- The derived chunking parameters of `chunkText`. `CHARS_PER_TOKEN = 4`;
`Math.floor(targetChars * 0.8)` and `Math.floor(targetChars * 0.6)` are the
natural-number divisions `4n/5` and `3n/5`. -/
structure CParams where
  text : Str
  targetChars : Nat
  overlapChars : Nat
  floor06 : Nat

/-- Compute the adjusted chunk end for the current `start`: prefer the last
sentence terminator `". "` or newline after the 0.6 floor, then the last
space after the 0.6 floor, else the raw cut. -/
def chunkEnd (p : CParams) (start : Nat) : Nat :=
  let end0 := Nat.min p.text.length (start + p.targetChars)
  if end0 < p.text.length then
    let period := lastIndexOfFrom p.text ['.', ' '] end0
    let newline := lastIndexOfFrom p.text ['\n'] end0
    let boundary := Max.max period newline
    if boundary > ((start + p.floor06 : Nat) : Int) then boundary.toNat + 1
    else
      let space := lastIndexOfFrom p.text [' '] end0
      if space > ((start + p.floor06 : Nat) : Int) then space.toNat
      else end0
  else end0

/-- The `while` loop of `chunkText`, with explicit fuel: `none` means the
fuel ran out before the loop terminated. Each iteration slices and trims
`[start, end)`, pushes it when non-empty, stops when `end` reaches the end
of the text, and otherwise restarts at `max(1, end - overlapChars)`. -/
def chunkLoop (p : CParams) : Nat → Nat → Nat → List Chunk → Option (List Chunk)
  | 0, _, _, _ => Option.none
  | fuel + 1, start, ord, acc =>
    if start < p.text.length then
      let e := chunkEnd p start
      let slice := trimBy isWsC ((p.text.drop start).take (e - start))
      let acc2 := if slice = [] then acc else acc ++ [⟨ord, slice, start, e⟩]
      let ord2 := if slice = [] then ord else ord + 1
      if p.text.length ≤ e then some acc2
      else chunkLoop p fuel (Nat.max 1 (e - p.overlapChars)) ord2 acc2
    else some acc

/-- `chunkText` of `chunking.ts`, with explicit fuel for the loop. -/
def chunkTextFuel (fuel : Nat) (input : Str) (opts : ChunkingOptions) : Option (List Chunk) :=
  let targetTokens := Nat.max 50 (opts.targetTokens.getD 350)
  let overlapTokens := Nat.max 0 (opts.overlapTokens.getD 80)
  let maxCharsPerChunk := Nat.max 500 (opts.maxCharsPerChunk.getD 4000)
  let targetChars := Nat.min (targetTokens * 4) maxCharsPerChunk
  let overlapChars := Nat.min (overlapTokens * 4) (targetChars * 4 / 5)
  let text := normalizeWs input
  if text = [] then some []
  else chunkLoop ⟨text, targetChars, overlapChars, targetChars * 3 / 5⟩ fuel 0 0 []

/-! ## `src/web/src/app/api/notes/[id]/links/route.ts`

Floating-point numbers of this route are modelled as real numbers, since
`cosineSim` divides by `Math.sqrt` of the squared norms. -/

/-- `cosineSim` of the links route: 0 on length mismatch or empty vectors,
0 on a non-positive squared norm, else the dot product over the product of
norms, clamped to `[0,1]`. -/
noncomputable def cosineSim (a b : List ℝ) : ℝ :=
  if a.length ≠ b.length ∨ a.length = 0 then 0
  else
    let dot := (List.zipWith (· * ·) a b).sum
    let na := (a.map (fun x => x * x)).sum
    let nb := (b.map (fun x => x * x)).sum
    if na ≤ 0 ∨ nb ≤ 0 then 0
    else clamp01 (dot / (Real.sqrt na * Real.sqrt nb))

/-- A chunk row of a note as the route sees it: its array index, its text,
and its parsed embedding (`null` when the stored JSON is unusable). -/
structure RChunk where
  idx : Nat
  text : Str
  vec : Option (List ℝ)

/-- A collected evidence pair of the matcher. -/
structure MatchR where
  sim : ℝ
  targetChunkIdx : Nat
  targetText : Str
  candidateChunkIdx : Nat
  candidateText : Str

/-- The dimension of the first chunk with a non-empty embedding:
`chunks.find(c => Array.isArray(c.vec) && c.vec.length)?.vec?.length || 0`. -/
def firstDim (cs : List RChunk) : Nat :=
  match cs.find? (fun c => (c.vec.getD []).length != 0) with
  | some c => (c.vec.getD []).length
  | Option.none => 0

/-- The shared chunk dimension: both first dimensions non-zero and equal,
else 0 (`tv && cv && tv === cv ? tv : 0`). -/
def sharedDim (tcs ccs : List RChunk) : Nat :=
  if firstDim tcs ≠ 0 ∧ firstDim ccs ≠ 0 ∧ firstDim tcs = firstDim ccs then firstDim tcs
  else 0

/-- The mutable state of the matcher loop: the running maximum `cos` and
the collected matches, in discovery order. -/
structure MState where
  cos : ℝ
  matchList : List MatchR

/-- The inner `for (const c of cand)` loop for one target chunk: skip
candidate chunks without a vector of the shared dimension, collect pairs
whose similarity reaches `minSim`, and track the running maximum. -/
noncomputable def innerLoop (minSim : ℝ) (dim : Nat) (tIdx : Nat) (tText : Str)
    (tv : List ℝ) : List RChunk → MState → MState
  | [], st => st
  | c :: cs, st =>
    match c.vec with
    | Option.none => innerLoop minSim dim tIdx tText tv cs st
    | some cv =>
      if cv.length = dim then
        let s := cosineSim tv cv
        innerLoop minSim dim tIdx tText tv cs
          ⟨if st.cos < s then s else st.cos,
            if minSim ≤ s then st.matchList ++ [⟨s, tIdx, tText, c.idx, c.text⟩]
            else st.matchList⟩
      else innerLoop minSim dim tIdx tText tv cs st

/-- The outer `for (const t of targetChunks)` loop: skip target chunks
without a vector of the shared dimension, else run the inner loop. -/
noncomputable def crossLoopGo (minSim : ℝ) (dim : Nat) (ccs : List RChunk) :
    List RChunk → MState → MState
  | [], st => st
  | t :: ts, st =>
    match t.vec with
    | Option.none => crossLoopGo minSim dim ccs ts st
    | some tv =>
      if tv.length = dim then
        crossLoopGo minSim dim ccs ts (innerLoop minSim dim t.idx t.text tv ccs st)
      else crossLoopGo minSim dim ccs ts st

/-- The whole pair loop, starting from `cos = 0` and no matches. -/
noncomputable def crossLoop (minSim : ℝ) (dim : Nat) (tcs ccs : List RChunk) : MState :=
  crossLoopGo minSim dim ccs tcs ⟨0, []⟩

/-- The chunks that take part in the pair loop: those whose parsed vector
exists and has the shared dimension, paired with that vector. -/
def fitVec (dim : Nat) (cs : List RChunk) : List (RChunk × List ℝ) :=
  cs.filterMap (fun c => c.vec.bind (fun v => if v.length = dim then some (c, v) else Option.none))

/-- The declarative match row of one participating target chunk: its
cosine against every participating candidate chunk, in discovery order. -/
noncomputable def rowPairs (tIdx : Nat) (tText : Str) (tv : List ℝ)
    (ccs : List (RChunk × List ℝ)) : List MatchR :=
  ccs.map (fun c => ⟨cosineSim tv c.2, tIdx, tText, c.1.idx, c.1.text⟩)

/-- The declarative list of every computed pair: each participating target
chunk crossed with each participating candidate chunk, in
target-then-candidate discovery order. -/
noncomputable def allPairMatches (dim : Nat) (tcs ccs : List RChunk) : List MatchR :=
  (fitVec dim tcs).flatMap (fun t => rowPairs t.1.idx t.1.text t.2 (fitVec dim ccs))

/-- A candidate note row as the route sees it after JSON parsing. -/
structure CandRow where
  id : Str
  title : Str
  embedding : Option (List ℝ)
  tags : List Str
  entities : List (EntIn ℝ)
  chunks : List RChunk

/-- The target-side context of one links request: the target chunk rows,
the note-level target vector (already defaulted to `[]` by `?? []`), the
target tags and entities, and the `min` and `topk` query parameters. -/
structure LinkCtx where
  targetChunks : List RChunk
  targetVec : List ℝ
  targetTags : List Str
  entitiesTarget : List (EntIn ℝ)
  minSim : ℝ
  topk : Nat

/-- The cross-chunk phase for one candidate: in the shared-dimension branch
run the pair loop, sort the matches descending by similarity (stable) and
truncate to `topk`; otherwise fall back to the note-level cosine when the
candidate embedding parses and the lengths agree. -/
noncomputable def candidateCompute (ctx : LinkCtx) (row : CandRow) : ℝ × List MatchR :=
  let dim := sharedDim ctx.targetChunks row.chunks
  if 0 < dim ∧ 0 < row.chunks.length ∧ 0 < ctx.targetChunks.length then
    let st := crossLoop ctx.minSim dim ctx.targetChunks row.chunks
    (st.cos, (sortDescBy (fun m => m.sim) st.matchList).take ctx.topk)
  else
    match row.embedding with
    | Option.none => (0, [])
    | some cv =>
      if cv.length = ctx.targetVec.length then (cosineSim ctx.targetVec cv, []) else (0, [])

/-- One returned suggestion row. -/
structure Suggestion where
  id : Str
  title : Str
  score : ℝ
  decision : LinkDecision
  explain : CandidateExplain ℝ
  features : FeatureScores ℝ
  sharedEntities : List Str
  matchList : List MatchR

/-- `Number(x.toFixed(3))` for a non-negative similarity: round to the
nearest thousandth (half away from zero). -/
noncomputable def round3 (x : ℝ) : ℝ := (⌊x * 1000 + 1 / 2⌋ : ℤ) / 1000

/-- The presentation form of a match: similarity rounded to three decimal
places, texts whitespace-collapsed and truncated to 160 characters. -/
noncomputable def presentMatch (m : MatchR) : MatchR :=
  { m with
    sim := round3 m.sim
    targetText := (normalizeWs m.targetText).take 160
    candidateText := (normalizeWs m.candidateText).take 160 }

/-- The per-candidate body of the links route: compute the cross-chunk
result, return `null` when the best cosine is exactly 0, else fuse the
features, score, classify and explain. -/
noncomputable def processCandidate (ctx : LinkCtx) (row : CandRow) : Option Suggestion :=
  let r := candidateCompute ctx row
  let cos := r.1
  if cos = 0 then Option.none
  else
    let featureInput : FeatureInputs ℝ :=
      { top5_cosines := [cos]
      , entitiesA := ctx.entitiesTarget
      , entitiesB := row.entities
      , tagsA := ctx.targetTags
      , tagsB := row.tags
      , tagIdf := Option.none
      , structural := some ⟨some 0, some 0, some 0⟩
      , aggregate := some Agg.mean }
    let feats := computeFeatureScores featureInput
    let score := finalLinkScore feats
    let decision := classifyLink score
    let explain := buildExplain featureInput
    let entA := ((ctx.entitiesTarget.map (fun e => e.entity.map toLowerJS)).filter (fun x => x ≠ [])).dedup
    let entB := ((row.entities.map (fun e => e.entity.map toLowerJS)).filter (fun x => x ≠ [])).dedup
    some
      { id := row.id
      , title := row.title
      , score := score
      , decision := decision
      , explain := explain
      , features := feats
      , sharedEntities := entA.filter (fun x => x ∈ entB)
      , matchList := r.2.map presentMatch }

/-- The suggestion list of the route: map the candidates, drop the `null`
results, sort by score descending (stable) and keep the top 25. -/
noncomputable def suggestionsOf (ctx : LinkCtx) (cands : List CandRow) : List Suggestion :=
  (sortDescBy (fun s => s.score) (cands.filterMap (processCandidate ctx))).take 25

/-! ## General lemmas -/

section OrderLemmas

variable {K : Type} [LinearOrder K]

lemma le_foldl_max (l : List K) (a : K) : a ≤ l.foldl max a := by
  induction l generalizing a with
  | nil => exact le_refl a
  | cons x xs ih => exact le_trans (le_max_left a x) (ih (max a x))

lemma mem_le_foldl_max {x : K} : ∀ {l : List K} (a : K), x ∈ l → x ≤ l.foldl max a := by
  intro l
  induction l with
  | nil => intro a hx; cases hx
  | cons y ys ih =>
    intro a hx
    rw [List.foldl_cons]
    rcases List.mem_cons.mp hx with rfl | h
    · exact le_trans (le_max_right a x) (le_foldl_max ys (max a x))
    · exact ih (max a y) h

lemma foldl_max_le {l : List K} {a b : K} (ha : a ≤ b) (h : ∀ x ∈ l, x ≤ b) :
    l.foldl max a ≤ b := by
  induction l generalizing a with
  | nil => exact ha
  | cons x xs ih =>
    exact ih (max_le ha (h x (List.mem_cons_self x xs)))
      (fun y hy => h y (List.mem_cons_of_mem x hy))

lemma foldl_max_mem (l : List K) (a : K) : l.foldl max a = a ∨ l.foldl max a ∈ l := by
  induction l generalizing a with
  | nil => exact Or.inl rfl
  | cons x xs ih =>
    rcases ih (max a x) with h | h
    · rcases max_choice a x with hm | hm
      · exact Or.inl (by rw [List.foldl_cons, h, hm])
      · exact Or.inr (by rw [List.foldl_cons, h, hm]; exact List.mem_cons_self x xs)
    · exact Or.inr (List.mem_cons_of_mem x h)

lemma ite_lt_eq_max (a b : K) : (if a < b then b else a) = max a b := by
  rcases lt_or_le a b with h | h
  · rw [if_pos h, max_eq_right (le_of_lt h)]
  · rw [if_neg (not_lt.mpr h), max_eq_left h]

end OrderLemmas

section ClampLemmas

variable {K : Type} [LinearOrderedField K]

lemma clamp01_nonneg (x : K) : 0 ≤ clamp01 x := le_max_left 0 _

lemma clamp01_le_one (x : K) : clamp01 x ≤ 1 :=
  max_le zero_le_one (min_le_left 1 x)

end ClampLemmas

/-! ## C1, C2 -/

/-- C1: for every `FeatureScores` value `f`, `finalLinkScore f` is the
clamp to `[0,1]` of the weighted sum
`0.6·semantic + 0.2·entity + 0.15·tag + 0.05·(reference + temporal + session)`,
multiplied by `0.5` exactly when `semantic < 0.35` and `entity_score < 0.2`. -/
theorem C1_finalLinkScore (f : FeatureScores ℚ) :
    finalLinkScore f =
      clamp01
        (if f.semantic < 35 / 100 ∧ f.entity_score < 2 / 10 then
          (5 / 10 : ℚ) *
            ((6 / 10) * f.semantic + (2 / 10) * f.entity_score + (15 / 100) * f.tag_score
              + (5 / 100) * (f.reference_score + f.temporal_score + f.session_score))
        else
          (6 / 10) * f.semantic + (2 / 10) * f.entity_score + (15 / 100) * f.tag_score
            + (5 / 100) * (f.reference_score + f.temporal_score + f.session_score)) := by
  unfold finalLinkScore
  split_ifs with h
  · ring_nf
  · rfl

/-- C2: `classifyLink` returns `hard` exactly on scores `≥ 0.55`, `soft`
exactly on `0.45 ≤ s < 0.55`, `none` otherwise; in particular at the four
boundary probes `0.55`, `0.549999`, `0.45`, `0.449999`. -/
theorem C2_classifyLink :
    (∀ s : ℚ,
      (classifyLink s = LinkDecision.hard ↔ 55 / 100 ≤ s) ∧
      (classifyLink s = LinkDecision.soft ↔ 45 / 100 ≤ s ∧ s < 55 / 100) ∧
      (classifyLink s = LinkDecision.none ↔ s < 45 / 100)) ∧
    classifyLink (55 / 100 : ℚ) = LinkDecision.hard ∧
    classifyLink (549999 / 1000000 : ℚ) = LinkDecision.soft ∧
    classifyLink (45 / 100 : ℚ) = LinkDecision.soft ∧
    classifyLink (449999 / 1000000 : ℚ) = LinkDecision.none := by
  have key : ∀ s : ℚ,
      (classifyLink s = LinkDecision.hard ↔ 55 / 100 ≤ s) ∧
      (classifyLink s = LinkDecision.soft ↔ 45 / 100 ≤ s ∧ s < 55 / 100) ∧
      (classifyLink s = LinkDecision.none ↔ s < 45 / 100) := by
    intro s
    unfold classifyLink
    split_ifs with h1 h2
    · refine ⟨⟨fun _ => h1, fun _ => rfl⟩, ⟨fun h => ?_, fun h => ?_⟩, ⟨fun h => ?_, fun h => ?_⟩⟩
      · cases h
      · exact absurd h1 (not_le.mpr h.2)
      · cases h
      · exact absurd h1 (not_le.mpr (lt_trans h (by norm_num)))
    · refine ⟨⟨fun h => ?_, fun h => ?_⟩, ⟨fun _ => ⟨h2, not_le.mp h1⟩, fun _ => rfl⟩,
        ⟨fun h => ?_, fun h => ?_⟩⟩
      · cases h
      · exact absurd h h1
      · cases h
      · exact absurd h2 (not_le.mpr h)
    · refine ⟨⟨fun h => ?_, fun h => ?_⟩, ⟨fun h => ?_, fun h => ?_⟩,
        ⟨fun _ => not_le.mp h2, fun _ => rfl⟩⟩
      · cases h
      · exact absurd h h1
      · cases h
      · exact absurd h.1 h2
  refine ⟨key, ?_, ?_, ?_, ?_⟩
  · exact (key _).1.mpr (by norm_num)
  · exact (key _).2.1.mpr (by norm_num)
  · exact (key _).2.1.mpr (by norm_num)
  · exact (key _).2.2.mpr (by norm_num)

/-! ## C4 -/

section C4Lemmas

variable {K : Type} [LinearOrderedField K]

lemma eget_nonneg {m : EMap K} (h : ∀ p ∈ m, 0 ≤ p.2) (k : Str) : 0 ≤ eget m k := by
  induction m with
  | nil => exact le_refl 0
  | cons p r ih =>
    obtain ⟨k1, w⟩ := p
    unfold eget
    split_ifs
    · exact h (k1, w) (List.mem_cons_self _ _)
    · exact ih (fun q hq => h q (List.mem_cons_of_mem _ hq))

lemma esetAdd_nonneg {m : EMap K} {k : Str} {w : K} (h : ∀ p ∈ m, 0 ≤ p.2) (hw : 0 ≤ w) :
    ∀ p ∈ esetAdd m k w, 0 ≤ p.2 := by
  induction m with
  | nil =>
    intro p hp
    rcases List.mem_singleton.mp hp with rfl
    exact hw
  | cons q r ih =>
    obtain ⟨k1, w1⟩ := q
    intro p hp
    unfold esetAdd at hp
    split_ifs at hp
    · rcases List.mem_cons.mp hp with rfl | hp
      · exact add_nonneg (h (k1, w1) (List.mem_cons_self _ _)) hw
      · exact h p (List.mem_cons_of_mem _ hp)
    · rcases List.mem_cons.mp hp with rfl | hp
      · exact h (k1, w1) (List.mem_cons_self _ _)
      · exact ih (fun q hq => h q (List.mem_cons_of_mem _ hq)) p hp

lemma toEntityMap_nonneg (l : List (EntIn K)) : ∀ p ∈ toEntityMap l, 0 ≤ p.2 := by
  unfold toEntityMap
  suffices h : ∀ m : EMap K, (∀ p ∈ m, 0 ≤ p.2) →
      ∀ p ∈ l.foldl (fun m e =>
        let key := normalizeEntityName e.entity
        if key = [] then m else esetAdd m key (max 0 (e.weight.getD 1))) m, 0 ≤ p.2 by
    exact h [] (by intro p hp; cases hp)
  induction l with
  | nil => intro m hm; exact hm
  | cons e es ih =>
    intro m hm
    rw [List.foldl_cons]
    apply ih
    dsimp only
    split_ifs
    · exact hm
    · exact esetAdd_nonneg hm (le_max_left 0 _)

lemma wjInter_nonneg {A B : EMap K} (hA : ∀ p ∈ A, 0 ≤ p.2) (hB : ∀ p ∈ B, 0 ≤ p.2) :
    0 ≤ wjInter A B := by
  apply List.sum_nonneg
  intro x hx
  rcases List.mem_map.mp hx with ⟨k, _, rfl⟩
  exact le_min (eget_nonneg hA k) (eget_nonneg hB k)

lemma wjUnion_nonneg {A B : EMap K} (hA : ∀ p ∈ A, 0 ≤ p.2) (hB : ∀ p ∈ B, 0 ≤ p.2) :
    0 ≤ wjUnion A B := by
  apply List.sum_nonneg
  intro x hx
  rcases List.mem_map.mp hx with ⟨k, _, rfl⟩
  exact le_trans (eget_nonneg hA k) (le_max_left _ _)

lemma wjInter_le_wjUnion (A B : EMap K) : wjInter A B ≤ wjUnion A B := by
  apply List.sum_le_sum
  intro k _
  exact le_trans (min_le_left _ _) (le_max_left _ _)

lemma weightedJaccard_nonneg {A B : EMap K} (hA : ∀ p ∈ A, 0 ≤ p.2) (hB : ∀ p ∈ B, 0 ≤ p.2) :
    0 ≤ weightedJaccard A B := by
  unfold weightedJaccard
  split_ifs with h1 h2
  · exact le_refl 0
  · exact le_refl 0
  · exact div_nonneg (wjInter_nonneg hA hB) (wjUnion_nonneg hA hB)

lemma weightedJaccard_le_one {A B : EMap K} (hA : ∀ p ∈ A, 0 ≤ p.2) (hB : ∀ p ∈ B, 0 ≤ p.2) :
    weightedJaccard A B ≤ 1 := by
  unfold weightedJaccard
  split_ifs with h1 h2
  · exact zero_le_one
  · exact zero_le_one
  · exact div_le_one_of_le₀ (wjInter_le_wjUnion A B) (wjUnion_nonneg hA hB)

lemma computeTagScore_nonneg (a b : List Str) (idf : Option (List (Str × K))) :
    0 ≤ computeTagScore a b idf := clamp01_nonneg _

lemma computeTagScore_le_one (a b : List Str) (idf : Option (List (Str × K))) :
    computeTagScore a b idf ≤ 1 := clamp01_le_one _

end C4Lemmas

/-- C4 counterexample input: a single top cosine of 2 with the `max`
aggregation. -/
def c4Input : FeatureInputs ℚ :=
  { top5_cosines := [2]
  , entitiesA := []
  , entitiesB := []
  , tagsA := []
  , tagsB := []
  , aggregate := some Agg.max }

/-- C4 is false as stated: with the `max` aggregation the supplied cosines
are not clamped before aggregation, so a cosine of 2 yields
`semantic = 2 ∉ [0,1]`. -/
theorem C4_counterexample :
    (computeFeatureScores c4Input).semantic = 2 ∧
    ¬ (computeFeatureScores c4Input).semantic ≤ 1 := by
  constructor
  · rfl
  · rw [show (computeFeatureScores c4Input).semantic = 2 from rfl]
    norm_num

/-- C4 amended: the supplied cosines are not individually clamped; the
`mean` aggregate is clamped to `[0,1]` after averaging and the `max`
aggregate is returned unclamped; an empty cosine list yields `semantic = 0`;
the five non-semantic fields of `computeFeatureScores` always lie in
`[0,1]`, and `semantic` lies in `[0,1]` whenever every supplied cosine
does. -/
theorem C4_featureScores_bounds (input : FeatureInputs ℚ) :
    (input.top5_cosines = [] → (computeFeatureScores input).semantic = 0) ∧
    (0 ≤ (computeFeatureScores input).entity_score ∧
      (computeFeatureScores input).entity_score ≤ 1) ∧
    (0 ≤ (computeFeatureScores input).tag_score ∧ (computeFeatureScores input).tag_score ≤ 1) ∧
    (0 ≤ (computeFeatureScores input).reference_score ∧
      (computeFeatureScores input).reference_score ≤ 1) ∧
    (0 ≤ (computeFeatureScores input).temporal_score ∧
      (computeFeatureScores input).temporal_score ≤ 1) ∧
    (0 ≤ (computeFeatureScores input).session_score ∧
      (computeFeatureScores input).session_score ≤ 1) ∧
    ((∀ x ∈ input.top5_cosines, 0 ≤ x ∧ x ≤ 1) →
      0 ≤ (computeFeatureScores input).semantic ∧ (computeFeatureScores input).semantic ≤ 1) := by
  refine ⟨?_, ⟨?_, ?_⟩, ⟨clamp01_nonneg _, clamp01_le_one _⟩, ⟨clamp01_nonneg _, clamp01_le_one _⟩,
    ⟨clamp01_nonneg _, clamp01_le_one _⟩, ⟨clamp01_nonneg _, clamp01_le_one _⟩, ?_⟩
  · intro h
    show aggregateSemantic input.top5_cosines _ = 0
    rw [h]
    rfl
  · exact weightedJaccard_nonneg (toEntityMap_nonneg _) (toEntityMap_nonneg _)
  · exact weightedJaccard_le_one (toEntityMap_nonneg _) (toEntityMap_nonneg _)
  · intro h
    show 0 ≤ aggregateSemantic input.top5_cosines _ ∧ aggregateSemantic input.top5_cosines _ ≤ 1
    unfold aggregateSemantic
    rcases hl : input.top5_cosines with _ | ⟨v, vs⟩
    · exact ⟨le_refl 0, zero_le_one⟩
    · have hv := h v (by rw [hl]; exact List.mem_cons_self v vs)
      split_ifs
      · refine ⟨le_trans hv.1 (le_foldl_max vs v), foldl_max_le hv.2 ?_⟩
        intro x hx
        exact (h x (by rw [hl]; exact List.mem_cons_of_mem v hx)).2
      · exact ⟨clamp01_nonneg _, clamp01_le_one _⟩

/-- An input with no cosines and the default aggregation. -/
def c4InputMean : FeatureInputs ℚ :=
  { top5_cosines := [], entitiesA := [], entitiesB := [], tagsA := [], tagsB := [] }

/-- An input with a single in-range cosine and the `max` aggregation. -/
def c4InputHalf : FeatureInputs ℚ :=
  { top5_cosines := [1 / 2], entitiesA := [], entitiesB := [], tagsA := [], tagsB := []
  , aggregate := some Agg.max }

/-! ## C6 -/

section C6Lemmas

variable {K : Type} [LinearOrderedField K]

lemma wjKeys_perm_comm (A B : EMap K) : (wjKeys A B).Perm (wjKeys B A) :=
  (List.perm_append_comm).dedup

lemma wjInter_comm (A B : EMap K) : wjInter A B = wjInter B A := by
  unfold wjInter
  have hf : (fun k => min (eget A k) (eget B k)) = fun k => min (eget B k) (eget A k) :=
    funext fun k => min_comm _ _
  rw [hf]
  exact ((wjKeys_perm_comm A B).map _).sum_eq

lemma wjUnion_comm (A B : EMap K) : wjUnion A B = wjUnion B A := by
  unfold wjUnion
  have hf : (fun k => max (eget A k) (eget B k)) = fun k => max (eget B k) (eget A k) :=
    funext fun k => max_comm _ _
  rw [hf]
  exact ((wjKeys_perm_comm A B).map _).sum_eq

lemma wjInter_self_eq_wjUnion_self (A : EMap K) : wjInter A A = wjUnion A A := by
  unfold wjInter wjUnion
  have hf : (fun k => min (eget A k) (eget A k)) = fun k => max (eget A k) (eget A k) :=
    funext fun k => by rw [min_self, max_self]
  rw [hf]

end C6Lemmas

/-- C6: `weightedJaccard` is false as stated on non-empty sets of total
weight zero, but the self-similarity identity holds whenever the union
weight is non-zero; the empty-empty case is 0 and the function is
symmetric. -/
theorem C6_weightedJaccard :
    (∀ A : EMap ℚ, A ≠ [] → wjUnion A A ≠ 0 → weightedJaccard A A = 1) ∧
    weightedJaccard ([] : EMap ℚ) [] = 0 ∧
    (∀ A B : EMap ℚ, weightedJaccard A B = weightedJaccard B A) := by
  refine ⟨fun A hA hU => ?_, rfl, fun A B => ?_⟩
  · unfold weightedJaccard
    rw [if_neg (fun h => hA h.1), if_neg hU, wjInter_self_eq_wjUnion_self, div_self hU]
  · unfold weightedJaccard
    by_cases h : A = [] ∧ B = []
    · rw [if_pos h, if_pos ⟨h.2, h.1⟩]
    · rw [if_neg h, if_neg (fun h2 : B = [] ∧ A = [] => h ⟨h2.2, h2.1⟩),
        wjInter_comm, wjUnion_comm]

/-- The C6 counterexample map: one key of weight 0. -/
def c6Zero : EMap ℚ := [(['a'], 0)]

/-- A one-key map of weight 2 for the C6 witness. -/
def c6Two : EMap ℚ := [(['a'], 2)]

/-- C6 is false as frozen: `weightedJaccard(A, A)` is 0, not 1, on the
non-empty set with a single weight-0 label. -/
theorem C6_counterexample : c6Zero ≠ [] ∧ weightedJaccard c6Zero c6Zero ≠ 1 := by
  constructor
  · exact List.cons_ne_nil _ _
  · have h : weightedJaccard c6Zero c6Zero = 0 := by
      unfold weightedJaccard
      rw [if_neg, if_pos]
      · show wjUnion c6Zero c6Zero = 0
        show ((wjKeys c6Zero c6Zero).map _).sum = 0
        rw [show wjKeys c6Zero c6Zero = [['a']] from rfl]
        show max (eget c6Zero ['a']) (eget c6Zero ['a']) + 0 = 0
        rw [show eget c6Zero ['a'] = 0 from rfl]
        norm_num
      · exact fun h => List.cons_ne_nil _ _ h.1
    rw [h]
    norm_num

/-- Witness for C6 at a non-empty map with non-zero union weight. -/
theorem C6_witness : weightedJaccard c6Two c6Two = 1 :=
  (C6_weightedJaccard.1) c6Two (List.cons_ne_nil _ _)
    (by
      show ((wjKeys c6Two c6Two).map _).sum ≠ 0
      rw [show wjKeys c6Two c6Two = [['a']] from rfl]
      show max (eget c6Two ['a']) (eget c6Two ['a']) + 0 ≠ 0
      rw [show eget c6Two ['a'] = 2 from rfl]
      norm_num)

/-! ## Stable-sort lemmas -/

section SortLemmas

variable {α β : Type} [LinearOrder β] (f : α → β)

lemma ordInsertDesc_perm (a : α) (l : List α) : (ordInsertDesc f a l).Perm (a :: l) := by
  induction l with
  | nil => exact List.Perm.refl _
  | cons b l ih =>
    unfold ordInsertDesc
    split_ifs
    · exact List.Perm.refl _
    · exact List.Perm.trans (List.Perm.cons b ih) (List.Perm.swap a b l)

lemma sortDescBy_perm (l : List α) : (sortDescBy f l).Perm l := by
  induction l with
  | nil => exact List.Perm.refl _
  | cons a l ih =>
    exact List.Perm.trans (ordInsertDesc_perm f a (sortDescBy f l)) (List.Perm.cons a ih)

lemma ordInsertDesc_pairwise {a : α} {l : List α}
    (h : l.Pairwise (fun x y => f y ≤ f x)) :
    (ordInsertDesc f a l).Pairwise (fun x y => f y ≤ f x) := by
  induction l with
  | nil => exact List.pairwise_singleton _ a
  | cons b l ih =>
    rw [List.pairwise_cons] at h
    unfold ordInsertDesc
    split_ifs with hba
    · refine List.pairwise_cons.mpr ⟨?_, List.pairwise_cons.mpr h⟩
      intro x hx
      rcases List.mem_cons.mp hx with rfl | hx
      · exact hba
      · exact le_trans (h.1 x hx) hba
    · refine List.pairwise_cons.mpr ⟨?_, ih h.2⟩
      intro x hx
      rcases (ordInsertDesc_perm f a l).mem_iff.mp hx with hx2
      rcases List.mem_cons.mp hx2 with rfl | hx3
      · exact le_of_lt (not_le.mp hba)
      · exact h.1 x hx3

lemma sortDescBy_pairwise (l : List α) :
    (sortDescBy f l).Pairwise (fun x y => f y ≤ f x) := by
  induction l with
  | nil => exact List.Pairwise.nil
  | cons a l ih => exact ordInsertDesc_pairwise f ih

lemma ordInsertDesc_filter_key (a : α) (l : List α) (w : β) :
    (ordInsertDesc f a l).filter (fun x => decide (f x = w)) =
      if f a = w then a :: l.filter (fun x => decide (f x = w))
      else l.filter (fun x => decide (f x = w)) := by
  induction l with
  | nil =>
    simp only [ordInsertDesc, List.filter_cons, List.filter_nil, decide_eq_true_eq]
  | cons b l ih =>
    simp only [ordInsertDesc]
    by_cases hba : f b ≤ f a
    · rw [if_pos hba]
      simp only [List.filter_cons, decide_eq_true_eq]
    · rw [if_neg hba]
      have hab : f a < f b := not_le.mp hba
      simp only [List.filter_cons, decide_eq_true_eq, ih]
      by_cases haw : f a = w
      · have hbw : ¬ f b = w := by
          intro hb
          rw [haw] at hab
          rw [hb] at hab
          exact lt_irrefl w hab
        rw [if_pos haw, if_neg hbw, if_pos haw, if_neg hbw]
      · rw [if_neg haw, if_neg haw]

lemma sortDescBy_filter_key (l : List α) (w : β) :
    (sortDescBy f l).filter (fun x => decide (f x = w)) =
      l.filter (fun x => decide (f x = w)) := by
  induction l with
  | nil => rfl
  | cons a l ih =>
    show (ordInsertDesc f a (sortDescBy f l)).filter _ = _
    rw [ordInsertDesc_filter_key, List.filter_cons]
    by_cases haw : f a = w
    · rw [if_pos haw, ih, if_pos (by simpa using haw)]
    · rw [if_neg haw, ih, if_neg (by simpa using haw)]

end SortLemmas

/-! ## C9 -/

/-- C9 counterexample input: two shared entities of equal weight whose
keys are in descending alphabetical discovery order. -/
def c9Input : FeatureInputs ℚ :=
  { top5_cosines := []
  , entitiesA := [⟨['b'], some 1⟩, ⟨['a'], some 1⟩]
  , entitiesB := [⟨['b'], some 1⟩, ⟨['a'], some 1⟩]
  , tagsA := []
  , tagsB := [] }

/-- C9 is false as stated: on equal `min` weights the shared entities keep
their discovery order (`b` before `a` here), not ascending key order, so
the claimed tie-break by key ascending would demand `[a, b]`. -/
theorem C9_counterexample :
    (buildExplain c9Input).shared_entities = [['b'], ['a']] ∧
    (buildExplain c9Input).shared_entities ≠ [['a'], ['b']] := by
  have h : (buildExplain c9Input).shared_entities = [['b'], ['a']] := by rfl
  refine ⟨h, ?_⟩
  rw [h]
  decide

/-- C9 amended: `buildExplain` returns the first 3 supplied cosines, and
its shared entities are the top 5 shared keys ordered by `min` weight
descending with ties keeping their discovery order (target keys then
candidate keys), as witnessed by the stable sort: the sorted candidate list
is pairwise descending and filters by any fixed weight to the discovery
order. -/
theorem C9_buildExplain :
    (∀ input : FeatureInputs ℚ, (buildExplain input).cosines = input.top5_cosines.take 3) ∧
    (∀ input : FeatureInputs ℚ,
      (buildExplain input).shared_entities =
        ((sortDescBy (fun p => p.2)
            (topIntersectCands (toEntityMap input.entitiesA) (toEntityMap input.entitiesB))).take 5).map
          (fun p => p.1)) ∧
    (∀ A B : EMap ℚ,
      (sortDescBy (fun p : Str × ℚ => p.2) (topIntersectCands A B)).Pairwise
        (fun x y => y.2 ≤ x.2)) ∧
    (∀ (A B : EMap ℚ) (w : ℚ),
      (sortDescBy (fun p : Str × ℚ => p.2) (topIntersectCands A B)).filter
          (fun x => decide (x.2 = w)) =
        (topIntersectCands A B).filter (fun x => decide (x.2 = w))) ∧
    (∀ A B : EMap ℚ, ∀ p ∈ topIntersectCands A B,
      0 < p.2 ∧ p.2 = min (eget A p.1) (eget B p.1) ∧ p.1 ∈ wjKeys A B) := by
  refine ⟨fun input => rfl, fun input => rfl, fun A B => sortDescBy_pairwise _ _,
    fun A B w => sortDescBy_filter_key _ _ _, fun A B p hp => ?_⟩
  unfold topIntersectCands at hp
  rcases List.mem_filterMap.mp hp with ⟨k, hk, hsome⟩
  dsimp only at hsome
  split_ifs at hsome with hpos
  rcases Option.some_inj.mp hsome with rfl
  exact ⟨hpos, rfl, hk⟩

/-! ## C10 -/

/-- C10: a candidate whose computed best cosine is exactly 0 is dropped by
the `cos === 0` early return, so it contributes nothing to the returned
suggestions no matter how strongly its tags or entities overlap, and is in
particular never classified hard or soft. -/
theorem C10_zero_cosine_excluded (ctx : LinkCtx) (row : CandRow)
    (h : (candidateCompute ctx row).1 = 0) :
    processCandidate ctx row = Option.none ∧
    ∀ pre post : List CandRow,
      suggestionsOf ctx (pre ++ row :: post) = suggestionsOf ctx (pre ++ post) := by
  have hnone : processCandidate ctx row = Option.none := by
    unfold processCandidate
    rw [if_pos h]
  refine ⟨hnone, fun pre post => ?_⟩
  unfold suggestionsOf
  rw [List.filterMap_append, List.filterMap_append, List.filterMap_cons, hnone]

/-- C10 witness context: a target with no chunks and no note vector but
with a tag. -/
noncomputable def c10Ctx : LinkCtx :=
  { targetChunks := [], targetVec := [], targetTags := [['x']], entitiesTarget := []
  , minSim := 7 / 10, topk := 3 }

/-- C10 witness candidate: no embeddings at all, but a tag identical to the
target's. -/
def c10Row : CandRow :=
  { id := ['c'], title := [], embedding := Option.none, tags := [['x']], entities := []
  , chunks := [] }

/-- Witness for C10: the tag-overlapping candidate without embeddings has
best cosine 0 and is excluded. -/
theorem C10_witness :
    processCandidate c10Ctx c10Row = Option.none ∧
    suggestionsOf c10Ctx ([] ++ c10Row :: []) = suggestionsOf c10Ctx ([] ++ []) :=
  ⟨(C10_zero_cosine_excluded c10Ctx c10Row rfl).1,
    (C10_zero_cosine_excluded c10Ctx c10Row rfl).2 [] []⟩

/-! ## C5 -/

section C5Lemmas

lemma cosineSim_nonneg (a b : List ℝ) : 0 ≤ cosineSim a b := by
  unfold cosineSim
  dsimp only
  split_ifs
  · exact le_refl (0 : ℝ)
  · exact le_refl (0 : ℝ)
  · exact clamp01_nonneg _

lemma innerLoop_cons (minS : ℝ) (dim tIdx : Nat) (tText : Str) (tv : List ℝ)
    (c : RChunk) (cs : List RChunk) (st : MState) :
    innerLoop minS dim tIdx tText tv (c :: cs) st =
      match c.vec with
      | Option.none => innerLoop minS dim tIdx tText tv cs st
      | some cv =>
        if cv.length = dim then
          innerLoop minS dim tIdx tText tv cs
            ⟨if st.cos < cosineSim tv cv then cosineSim tv cv else st.cos,
              if minS ≤ cosineSim tv cv then
                st.matchList ++ [⟨cosineSim tv cv, tIdx, tText, c.idx, c.text⟩]
              else st.matchList⟩
        else innerLoop minS dim tIdx tText tv cs st := rfl

lemma crossLoopGo_cons (minS : ℝ) (dim : Nat) (ccs : List RChunk) (t : RChunk)
    (ts : List RChunk) (st : MState) :
    crossLoopGo minS dim ccs (t :: ts) st =
      match t.vec with
      | Option.none => crossLoopGo minS dim ccs ts st
      | some tv =>
        if tv.length = dim then
          crossLoopGo minS dim ccs ts (innerLoop minS dim t.idx t.text tv ccs st)
        else crossLoopGo minS dim ccs ts st := rfl

lemma fitVec_cons (dim : Nat) (c : RChunk) (cs : List RChunk) :
    fitVec dim (c :: cs) =
      match c.vec with
      | Option.none => fitVec dim cs
      | some v => if v.length = dim then (c, v) :: fitVec dim cs else fitVec dim cs := by
  cases hv : c.vec with
  | none => simp [fitVec, List.filterMap_cons, hv]
  | some v =>
    by_cases h : v.length = dim
    · simp [fitVec, List.filterMap_cons, hv, h]
    · simp [fitVec, List.filterMap_cons, hv, h]

lemma innerLoop_spec (minS : ℝ) (dim tIdx : Nat) (tText : Str) (tv : List ℝ)
    (ccs : List RChunk) (st : MState) :
    innerLoop minS dim tIdx tText tv ccs st =
      ⟨((rowPairs tIdx tText tv (fitVec dim ccs)).map (fun m => m.sim)).foldl max st.cos,
        st.matchList ++
          (rowPairs tIdx tText tv (fitVec dim ccs)).filter (fun m => decide (minS ≤ m.sim))⟩ := by
  induction ccs generalizing st with
  | nil =>
    obtain ⟨c0, ms⟩ := st
    simp [innerLoop, fitVec, rowPairs]
  | cons c cs ih =>
    cases hv : c.vec with
    | none =>
      simp only [innerLoop_cons, fitVec_cons, hv]
      exact ih st
    | some cv =>
      by_cases hlen : cv.length = dim
      · simp only [innerLoop_cons, fitVec_cons, hv, if_pos hlen, rowPairs, List.map_cons,
          List.foldl_cons, List.filter_cons, decide_eq_true_eq]
        rw [ih]
        dsimp only
        refine congrArg₂ MState.mk ?_ ?_
        · rw [ite_lt_eq_max]
          rfl
        · by_cases hms : minS ≤ cosineSim tv cv
          · rw [if_pos hms, if_pos hms, List.append_assoc]
            rfl
          · rw [if_neg hms, if_neg hms]
            rfl
      · simp only [innerLoop_cons, fitVec_cons, hv, if_neg hlen]
        exact ih st

lemma crossLoopGo_spec (minS : ℝ) (dim : Nat) (ccs tcs : List RChunk) (st : MState) :
    crossLoopGo minS dim ccs tcs st =
      ⟨((allPairMatches dim tcs ccs).map (fun m => m.sim)).foldl max st.cos,
        st.matchList ++
          (allPairMatches dim tcs ccs).filter (fun m => decide (minS ≤ m.sim))⟩ := by
  induction tcs generalizing st with
  | nil =>
    obtain ⟨c0, ms⟩ := st
    simp [crossLoopGo, allPairMatches, fitVec]
  | cons t ts ih =>
    cases hv : t.vec with
    | none =>
      have hall : allPairMatches dim (t :: ts) ccs = allPairMatches dim ts ccs := by
        unfold allPairMatches
        simp only [fitVec_cons, hv]
      simp only [crossLoopGo_cons, hv, hall]
      exact ih st
    | some tv =>
      by_cases hlen : tv.length = dim
      · have hall : allPairMatches dim (t :: ts) ccs
            = rowPairs t.idx t.text tv (fitVec dim ccs) ++ allPairMatches dim ts ccs := by
          unfold allPairMatches
          simp only [fitVec_cons, hv, if_pos hlen, List.flatMap_cons]
        simp only [crossLoopGo_cons, hv, if_pos hlen, hall]
        rw [ih, innerLoop_spec]
        rw [List.map_append, List.foldl_append, List.filter_append, List.append_assoc]
      · have hall : allPairMatches dim (t :: ts) ccs = allPairMatches dim ts ccs := by
          unfold allPairMatches
          simp only [fitVec_cons, hv, if_neg hlen]
        simp only [crossLoopGo_cons, hv, if_neg hlen, hall]
        exact ih st

lemma firstDim_mem {cs : List RChunk} (h : firstDim cs ≠ 0) :
    ∃ c ∈ cs, ∃ v, c.vec = some v ∧ v.length = firstDim cs := by
  cases hf : cs.find? (fun c => (c.vec.getD []).length != 0) with
  | none =>
    exfalso
    apply h
    unfold firstDim
    rw [hf]
  | some c =>
    have hd : firstDim cs = (c.vec.getD []).length := by
      unfold firstDim
      rw [hf]
    refine ⟨c, List.mem_of_find?_eq_some hf, ?_⟩
    cases hv : c.vec with
    | none =>
      exfalso
      apply h
      rw [hd, hv]
      rfl
    | some v =>
      refine ⟨v, rfl, ?_⟩
      rw [hd, hv]
      rfl

lemma sharedDim_spec {tcs ccs : List RChunk} (h : sharedDim tcs ccs ≠ 0) :
    firstDim tcs = sharedDim tcs ccs ∧ firstDim ccs = sharedDim tcs ccs := by
  unfold sharedDim at h ⊢
  split_ifs at h ⊢ with hc
  · exact ⟨rfl, hc.2.2.symm⟩
  · exact absurd rfl h

lemma fitVec_of_firstDim {cs : List RChunk} {dim : Nat} (hd : firstDim cs = dim)
    (h : dim ≠ 0) : ∃ p, p ∈ fitVec dim cs := by
  obtain ⟨c, hc, v, hv, hlen⟩ := firstDim_mem (by rw [hd]; exact h)
  refine ⟨(c, v), List.mem_filterMap.mpr ⟨c, hc, ?_⟩⟩
  rw [hv]
  show (if v.length = dim then some (c, v) else Option.none) = some (c, v)
  rw [if_pos (by rw [hlen, hd])]

lemma allPairMatches_ne_nil {tcs ccs : List RChunk} (h : sharedDim tcs ccs ≠ 0) :
    ∃ m, m ∈ allPairMatches (sharedDim tcs ccs) tcs ccs := by
  obtain ⟨hdt, hdc⟩ := sharedDim_spec h
  obtain ⟨t, ht⟩ := fitVec_of_firstDim hdt h
  obtain ⟨c, hc⟩ := fitVec_of_firstDim hdc h
  exact ⟨_, List.mem_flatMap.mpr ⟨t, ht, List.mem_map.mpr ⟨c, hc, rfl⟩⟩⟩

lemma allPairMatches_sim_nonneg {dim : Nat} {tcs ccs : List RChunk} :
    ∀ m ∈ allPairMatches dim tcs ccs, 0 ≤ m.sim := by
  intro m hm
  rcases List.mem_flatMap.mp hm with ⟨t, _, hmr⟩
  rcases List.mem_map.mp hmr with ⟨c, _, rfl⟩
  exact cosineSim_nonneg _ _

lemma chunks_ne_nil_of_firstDim {cs : List RChunk} (h : firstDim cs ≠ 0) : 0 < cs.length := by
  obtain ⟨c, hc, -⟩ := firstDim_mem h
  exact List.length_pos.mpr (List.ne_nil_of_mem hc)

end C5Lemmas

/-- C5: in the shared-dimension branch, the imperative pair loop computes a
cosine for every participating (target, candidate) chunk pair in
target-then-candidate discovery order, collects exactly the pairs whose
similarity reaches `minSim`, the route result is the stable descending sort
of that list truncated to `topk` (sorted pairwise, ties keeping discovery
order), and the reported best similarity is the true maximum over all
computed pairs. -/
theorem C5_crossChunkMatcher (ctx : LinkCtx) (row : CandRow)
    (hdim : sharedDim ctx.targetChunks row.chunks ≠ 0) :
    (crossLoop ctx.minSim (sharedDim ctx.targetChunks row.chunks) ctx.targetChunks row.chunks).matchList =
      (allPairMatches (sharedDim ctx.targetChunks row.chunks) ctx.targetChunks row.chunks).filter
        (fun m => decide (ctx.minSim ≤ m.sim)) ∧
    candidateCompute ctx row =
      ((crossLoop ctx.minSim (sharedDim ctx.targetChunks row.chunks) ctx.targetChunks row.chunks).cos,
        (sortDescBy (fun m => m.sim)
          ((allPairMatches (sharedDim ctx.targetChunks row.chunks) ctx.targetChunks row.chunks).filter
            (fun m => decide (ctx.minSim ≤ m.sim)))).take ctx.topk) ∧
    ((sortDescBy (fun m => m.sim)
        ((allPairMatches (sharedDim ctx.targetChunks row.chunks) ctx.targetChunks row.chunks).filter
          (fun m => decide (ctx.minSim ≤ m.sim)))).Pairwise (fun a b => b.sim ≤ a.sim)) ∧
    (∀ w : ℝ,
      (sortDescBy (fun m => m.sim)
          ((allPairMatches (sharedDim ctx.targetChunks row.chunks) ctx.targetChunks row.chunks).filter
            (fun m => decide (ctx.minSim ≤ m.sim)))).filter (fun m => decide (m.sim = w)) =
        ((allPairMatches (sharedDim ctx.targetChunks row.chunks) ctx.targetChunks row.chunks).filter
          (fun m => decide (ctx.minSim ≤ m.sim))).filter (fun m => decide (m.sim = w))) ∧
    (∀ m ∈ allPairMatches (sharedDim ctx.targetChunks row.chunks) ctx.targetChunks row.chunks,
      m.sim ≤ (crossLoop ctx.minSim (sharedDim ctx.targetChunks row.chunks) ctx.targetChunks row.chunks).cos) ∧
    (crossLoop ctx.minSim (sharedDim ctx.targetChunks row.chunks) ctx.targetChunks row.chunks).cos ∈
      (allPairMatches (sharedDim ctx.targetChunks row.chunks) ctx.targetChunks row.chunks).map
        (fun m => m.sim) := by
  have hspec := crossLoopGo_spec ctx.minSim (sharedDim ctx.targetChunks row.chunks)
    row.chunks ctx.targetChunks ⟨0, []⟩
  have hcross : crossLoop ctx.minSim (sharedDim ctx.targetChunks row.chunks)
      ctx.targetChunks row.chunks =
      ⟨((allPairMatches (sharedDim ctx.targetChunks row.chunks) ctx.targetChunks row.chunks).map
          (fun m => m.sim)).foldl max 0,
        (allPairMatches (sharedDim ctx.targetChunks row.chunks) ctx.targetChunks row.chunks).filter
          (fun m => decide (ctx.minSim ≤ m.sim))⟩ := by
    unfold crossLoop
    rw [hspec]
    rfl
  have hmatch : (crossLoop ctx.minSim (sharedDim ctx.targetChunks row.chunks)
      ctx.targetChunks row.chunks).matchList =
      (allPairMatches (sharedDim ctx.targetChunks row.chunks) ctx.targetChunks row.chunks).filter
        (fun m => decide (ctx.minSim ≤ m.sim)) := by rw [hcross]
  refine ⟨hmatch, ?_, sortDescBy_pairwise _ _, fun w => sortDescBy_filter_key _ _ _, ?_, ?_⟩
  · unfold candidateCompute
    rw [if_pos ⟨Nat.pos_of_ne_zero hdim,
      chunks_ne_nil_of_firstDim (by rw [(sharedDim_spec hdim).2]; exact hdim),
      chunks_ne_nil_of_firstDim (by rw [(sharedDim_spec hdim).1]; exact hdim)⟩]
    dsimp only
    rw [hmatch]
  · intro m hm
    rw [hcross]
    exact mem_le_foldl_max 0 (List.mem_map.mpr ⟨m, hm, rfl⟩)
  · rw [hcross]
    show ((allPairMatches _ _ _).map (fun m => m.sim)).foldl max 0 ∈ _
    rcases foldl_max_mem ((allPairMatches (sharedDim ctx.targetChunks row.chunks)
        ctx.targetChunks row.chunks).map (fun m => m.sim)) 0 with h0 | hmem
    · obtain ⟨m0, hm0⟩ := allPairMatches_ne_nil hdim
      have hle : m0.sim ≤ 0 := by
        rw [← h0]
        exact mem_le_foldl_max 0 (List.mem_map.mpr ⟨m0, hm0, rfl⟩)
      have hge : 0 ≤ m0.sim := allPairMatches_sim_nonneg m0 hm0
      rw [h0]
      exact List.mem_map.mpr ⟨m0, hm0, le_antisymm hle hge⟩
    · exact hmem

/-- C5 witness target context: one target chunk with the vector `[1, 0]`. -/
noncomputable def c5Ctx : LinkCtx :=
  { targetChunks := [⟨0, ['t'], some [1, 0]⟩], targetVec := [], targetTags := []
  , entitiesTarget := [], minSim := 7 / 10, topk := 3 }

/-- C5 witness candidate row: one chunk with the vector `[0, 1]`. -/
noncomputable def c5Row : CandRow :=
  { id := [], title := [], embedding := Option.none, tags := [], entities := []
  , chunks := [⟨0, ['c'], some [0, 1]⟩] }

/-- Witness for C5 at a concrete pair of one-chunk documents of shared
dimension 2. -/
theorem C5_witness :
    sharedDim c5Ctx.targetChunks c5Row.chunks ≠ 0 ∧
    candidateCompute c5Ctx c5Row =
      ((crossLoop c5Ctx.minSim (sharedDim c5Ctx.targetChunks c5Row.chunks)
          c5Ctx.targetChunks c5Row.chunks).cos,
        (sortDescBy (fun m => m.sim)
          ((allPairMatches (sharedDim c5Ctx.targetChunks c5Row.chunks)
              c5Ctx.targetChunks c5Row.chunks).filter
            (fun m => decide (c5Ctx.minSim ≤ m.sim)))).take c5Ctx.topk) :=
  ⟨by decide, (C5_crossChunkMatcher c5Ctx c5Row (by decide)).2.1⟩

/-! ## C3, C8 -/

/-- The trimmed slice pushed by one iteration of the chunking loop. -/
def chunkSlice (p : CParams) (start : Nat) : Str :=
  trimBy isWsC ((p.text.drop start).take (chunkEnd p start - start))

/-- One unfolding of the chunking loop. -/
lemma chunkLoop_succ (p : CParams) (fuel start ord : Nat) (acc : List Chunk) :
    chunkLoop p (fuel + 1) start ord acc =
      if start < p.text.length then
        if p.text.length ≤ chunkEnd p start then
          some (if chunkSlice p start = [] then acc
            else acc ++ [⟨ord, chunkSlice p start, start, chunkEnd p start⟩])
        else
          chunkLoop p fuel (Nat.max 1 (chunkEnd p start - p.overlapChars))
            (if chunkSlice p start = [] then ord else ord + 1)
            (if chunkSlice p start = [] then acc
              else acc ++ [⟨ord, chunkSlice p start, start, chunkEnd p start⟩])
      else some acc := rfl

/-- Loop invariant for C8: every chunk already in the accumulator, and
every chunk the loop pushes, carries the trimmed slice of its own span. -/
lemma chunkLoop_text_inv (p : CParams) :
    ∀ (fuel : Nat) (start ord : Nat) (acc res : List Chunk),
      (∀ c ∈ acc, c.text = trimBy isWsC ((p.text.drop c.startIndex).take (c.endIndex - c.startIndex))) →
      chunkLoop p fuel start ord acc = some res →
      ∀ c ∈ res, c.text = trimBy isWsC ((p.text.drop c.startIndex).take (c.endIndex - c.startIndex)) := by
  intro fuel
  induction fuel with
  | zero =>
    intro start ord acc res hacc h
    cases h
  | succ n ih =>
    intro start ord acc res hacc h
    rw [chunkLoop_succ] at h
    by_cases hsl : chunkSlice p start = []
    · rw [if_pos hsl, if_pos hsl] at h
      split_ifs at h with hs hend
      · exact (Option.some_inj.mp h) ▸ hacc
      · exact ih _ _ _ _ hacc h
      · exact (Option.some_inj.mp h) ▸ hacc
    · rw [if_neg hsl, if_neg hsl] at h
      have hpush : ∀ c ∈ acc ++ [(⟨ord, chunkSlice p start, start, chunkEnd p start⟩ : Chunk)],
          c.text = trimBy isWsC ((p.text.drop c.startIndex).take (c.endIndex - c.startIndex)) := by
        intro c hc
        rcases List.mem_append.mp hc with hc | hc
        · exact hacc c hc
        · rcases List.mem_singleton.mp hc with rfl
          rfl
      split_ifs at h with hs hend
      · exact (Option.some_inj.mp h) ▸ hpush
      · exact ih _ _ _ _ hpush h
      · exact (Option.some_inj.mp h) ▸ hacc

/-- C8 counterexample text: 150 letters, a space, 150 letters. -/
def c8Text : Str := List.replicate 150 'a' ++ ' ' :: List.replicate 150 'b'

/-- C8 counterexample options: 200-char chunks, no overlap. -/
def c8Opts : ChunkingOptions := { targetTokens := some 50, overlapTokens := some 0 }

/-- C8 is false as stated: the second chunk starts on the space at offset
150, which `trim` removes, so its `text` (150 characters) is not the exact
substring `[150, 301)` of the normalized input (151 characters). -/
theorem C8_counterexample :
    chunkTextFuel 3 c8Text c8Opts =
      some [⟨0, List.replicate 150 'a', 0, 150⟩, ⟨1, List.replicate 150 'b', 150, 301⟩] ∧
    ¬ (List.replicate 150 'b' : Str) = ((normalizeWs c8Text).drop 150).take (301 - 150) := by
  constructor
  · decide
  · decide

/-- C8 amended: for every chunk emitted by `chunkText`, the chunk text is
the whitespace-trimmed substring `[startIndex, endIndex)` of the
whitespace-normalized source text (and therefore the exact substring
whenever that substring has no leading or trailing whitespace). -/
theorem C8_chunkText_slice (fuel : Nat) (input : Str) (opts : ChunkingOptions)
    (res : List Chunk) (h : chunkTextFuel fuel input opts = some res) :
    ∀ c ∈ res,
      c.text = trimBy isWsC (((normalizeWs input).drop c.startIndex).take (c.endIndex - c.startIndex)) := by
  unfold chunkTextFuel at h
  by_cases hn : normalizeWs input = []
  · rw [if_pos hn] at h
    rcases Option.some_inj.mp h with rfl
    intro c hc
    cases hc
  · rw [if_neg hn] at h
    exact chunkLoop_text_inv _ fuel 0 0 [] res (by intro c hc; cases hc) h

/-- Witness for C8 amended on a two-character input chunked in one step. -/
theorem C8_witness :
    chunkTextFuel 1 ['a', 'b'] {} = some [⟨0, ['a', 'b'], 0, 2⟩] ∧
    ∀ c ∈ [(⟨0, ['a', 'b'], 0, 2⟩ : Chunk)],
      c.text = trimBy isWsC (((normalizeWs ['a', 'b']).drop c.startIndex).take (c.endIndex - c.startIndex)) :=
  ⟨by decide, C8_chunkText_slice 1 ['a', 'b'] {} _ (by decide)⟩

/-- The C3 failing input: 130 letters, a sentence terminator `". "`, then
100 letters; 232 characters in all, already whitespace-normalized. -/
def c3Text : Str := List.replicate 130 'a' ++ '.' :: ' ' :: List.replicate 100 'b'

/-- The C3 failing options: `targetTokens = 50` (so 200 target characters)
and `overlapTokens = 40` (so 160 overlap characters). -/
def c3Opts : ChunkingOptions := { targetTokens := some 50, overlapTokens := some 40 }

/-- The chunking parameters derived from `c3Opts`:
`targetChars = min(200, 4000) = 200`, `overlapChars = min(160, 160) = 160`,
`floor(0.6 · 200) = 120`. -/
def c3Params : CParams := ⟨c3Text, 200, 160, 120⟩

/-- C3 fails on the code: on `c3Text` with `c3Opts` the chunking loop
stalls. The sentence boundary at offset 130 puts every chunk end at 131,
and `max(1, 131 - 160) = 1` sends the cursor back to offset 1 forever, so
`chunkText` never terminates: the loop exhausts any finite fuel. The start
offsets of successive emitted chunks are 0, 1, 1, 1, ..., not strictly
increasing. -/
theorem C3_chunkText_stalls (fuel : Nat) : chunkTextFuel fuel c3Text c3Opts = Option.none := by
  have hstall : ∀ n ord acc, chunkLoop c3Params n 1 ord acc = Option.none := by
    intro n
    induction n with
    | zero => intro ord acc; rfl
    | succ m ih =>
      intro ord acc
      rw [chunkLoop_succ]
      rw [if_pos (show 1 < c3Params.text.length by decide)]
      rw [if_neg (show ¬ c3Params.text.length ≤ chunkEnd c3Params 1 by decide)]
      rw [show Nat.max 1 (chunkEnd c3Params 1 - c3Params.overlapChars) = 1 by decide]
      exact ih _ _
  have hmain : chunkTextFuel fuel c3Text c3Opts = chunkLoop c3Params fuel 0 0 [] := rfl
  rw [hmain]
  cases fuel with
  | zero => rfl
  | succ m =>
    rw [chunkLoop_succ]
    rw [if_pos (show (0 : Nat) < c3Params.text.length by decide)]
    rw [if_neg (show ¬ c3Params.text.length ≤ chunkEnd c3Params 0 by decide)]
    rw [show Nat.max 1 (chunkEnd c3Params 0 - c3Params.overlapChars) = 1 by decide]
    exact hstall m _ _

/-! ## C7 -/

section C7CharLemmas

lemma isKeepT_cases {c : Char} (h : isKeepT c = true) :
    (97 ≤ c.toNat ∧ c.toNat ≤ 122) ∨ (48 ≤ c.toNat ∧ c.toNat ≤ 57) ∨ c = '-' := by
  simp only [isKeepT, isLowC, isDigC, Bool.or_eq_true, Bool.and_eq_true,
    decide_eq_true_eq] at h
  tauto

lemma toLowerJS_keep {c : Char} (h : isKeepT c = true) : toLowerJS c = c := by
  unfold toLowerJS
  rcases isKeepT_cases h with ⟨h1, h2⟩ | ⟨h1, h2⟩ | rfl
  · rw [if_neg]
    simp only [Bool.and_eq_true, decide_eq_true_eq, not_and]
    intro
    omega
  · rw [if_neg]
    simp only [Bool.and_eq_true, decide_eq_true_eq, not_and]
    intro
    omega
  · decide

lemma isWsC_keep {c : Char} (h : isKeepT c = true) : isWsC c = false := by
  rcases isKeepT_cases h with ⟨h1, h2⟩ | ⟨h1, h2⟩ | rfl
  · simp only [isWsC, Bool.or_eq_false_iff, decide_eq_false_iff_not]
    refine ⟨⟨⟨⟨⟨?_, ?_⟩, ?_⟩, ?_⟩, ?_⟩, ?_⟩ <;> (intro hc; subst hc; revert h1; decide)
  · simp only [isWsC, Bool.or_eq_false_iff, decide_eq_false_iff_not]
    refine ⟨⟨⟨⟨⟨?_, ?_⟩, ?_⟩, ?_⟩, ?_⟩, ?_⟩ <;> (intro hc; subst hc; revert h1; decide)
  · decide

lemma keepMap_keep {c : Char} (h : isKeepT c = true) :
    (if isKeepT c || isWsC c then c else ' ') = c := by
  rw [h]
  rfl

lemma underscoreMap_keep {c : Char} (h : isKeepT c = true) :
    (if c = '_' then ' ' else c) = c := by
  rw [if_neg]
  intro hc
  subst hc
  exact absurd h (by decide)

lemma hyphen_keep : isKeepT '-' = true := by decide

end C7CharLemmas

section C7ListLemmas

lemma map_id_of {α : Type} {f : α → α} :
    ∀ {l : List α}, (∀ c ∈ l, f c = c) → l.map f = l := by
  intro l
  induction l with
  | nil => intro _; rfl
  | cons x xs ih =>
    intro h
    rw [List.map_cons, h x (List.mem_cons_self x xs),
      ih (fun c hc => h c (List.mem_cons_of_mem x hc))]

lemma collapseRuns_cons (t x : Char) (xs : Str) :
    collapseRuns t (x :: xs) =
      if x = t ∧ (collapseRuns t xs).head? = some t then collapseRuns t xs
      else x :: collapseRuns t xs := rfl

lemma mem_collapseRuns {t c : Char} : ∀ {l : Str}, c ∈ collapseRuns t l → c ∈ l := by
  intro l
  induction l with
  | nil => intro h; cases h
  | cons x xs ih =>
    intro h
    rw [collapseRuns_cons] at h
    split_ifs at h with hc
    · exact List.mem_cons_of_mem x (ih h)
    · rcases List.mem_cons.mp h with rfl | h
      · exact List.mem_cons_self c xs
      · exact List.mem_cons_of_mem x (ih h)

lemma dropTrailing_append : ∀ (p : Char → Bool) (l : Str), ∃ t, dropTrailing p l ++ t = l := by
  intro p l
  induction l with
  | nil => exact ⟨[], rfl⟩
  | cons x xs ih =>
    obtain ⟨t, ht⟩ := ih
    unfold dropTrailing
    dsimp only
    split_ifs with hc
    · exact ⟨x :: xs, rfl⟩
    · exact ⟨t, by rw [List.cons_append, ht]⟩

lemma mem_dropTrailing {p : Char → Bool} {c : Char} {l : Str}
    (h : c ∈ dropTrailing p l) : c ∈ l := by
  obtain ⟨t, ht⟩ := dropTrailing_append p l
  rw [← ht]
  exact List.mem_append_left t h

lemma mem_trimBy {p : Char → Bool} {c : Char} {l : Str} (h : c ∈ trimBy p l) : c ∈ l :=
  (List.dropWhile_sublist p).mem (mem_dropTrailing h)

lemma splitByAux_cons (p : Char → Bool) (x : Char) (xs : Str) :
    splitByAux p (x :: xs) =
      if p x then [] :: splitByAux p xs
      else
        match splitByAux p xs with
        | [] => [[x]]
        | w :: ws => (x :: w) :: ws := rfl

lemma splitByAux_chars {p : Char → Bool} :
    ∀ {l : Str} {w : Str}, w ∈ splitByAux p l → ∀ c ∈ w, c ∈ l ∧ p c = false := by
  intro l
  induction l with
  | nil => intro w hw; cases hw
  | cons x xs ih =>
    intro w hw c hc
    rw [splitByAux_cons] at hw
    split_ifs at hw with hp
    · rcases List.mem_cons.mp hw with rfl | hw
      · cases hc
      · obtain ⟨h1, h2⟩ := ih hw c hc
        exact ⟨List.mem_cons_of_mem x h1, h2⟩
    · cases haux : splitByAux p xs with
      | nil =>
        rw [haux] at hw
        rcases List.mem_singleton.mp hw with rfl
        rcases List.mem_singleton.mp hc with rfl
        exact ⟨List.mem_cons_self c xs, Bool.not_eq_true _ ▸ hp⟩
      | cons w1 ws =>
        rw [haux] at hw
        rcases List.mem_cons.mp hw with rfl | hw
        · rcases List.mem_cons.mp hc with rfl | hc
          · exact ⟨List.mem_cons_self c xs, Bool.not_eq_true _ ▸ hp⟩
          · obtain ⟨h1, h2⟩ := ih (haux ▸ List.mem_cons_self w1 ws) c hc
            exact ⟨List.mem_cons_of_mem x h1, h2⟩
        · obtain ⟨h1, h2⟩ := ih (haux ▸ List.mem_cons_of_mem w1 hw) c hc
          exact ⟨List.mem_cons_of_mem x h1, h2⟩

lemma splitBy_chars {p : Char → Bool} {l w : Str} (hw : w ∈ splitBy p l) :
    ∀ c ∈ w, c ∈ l ∧ p c = false := by
  unfold splitBy at hw
  exact splitByAux_chars (List.mem_of_mem_filter hw)

lemma mem_joinHyphen {c : Char} :
    ∀ {ws : List Str}, c ∈ joinHyphen ws → (∃ w ∈ ws, c ∈ w) ∨ c = '-' := by
  intro ws
  induction ws with
  | nil => intro h; cases h
  | cons w ws ih =>
    intro h
    cases hws : ws with
    | nil =>
      rw [hws] at h
      exact Or.inl ⟨w, List.mem_cons_self w _, h⟩
    | cons w1 ws1 =>
      rw [hws] at h
      rcases List.mem_append.mp h with h | h
      · exact Or.inl ⟨w, List.mem_cons_self w _, h⟩
      · rcases List.mem_cons.mp h with rfl | h
        · exact Or.inr rfl
        · rcases ih (hws ▸ h) with ⟨w2, hw2, hc⟩ | h
          · exact Or.inl ⟨w2, List.mem_cons_of_mem w (hws ▸ hw2), hc⟩
          · exact Or.inr h

end C7ListLemmas

/-- No two adjacent hyphens. -/
abbrev NoDD (l : Str) : Prop := l.Chain' (fun a b => ¬(a = '-' ∧ b = '-'))

section C7ChainLemmas

lemma collapseRuns_noDD : ∀ l : Str, NoDD (collapseRuns '-' l) := by
  intro l
  induction l with
  | nil => exact List.chain'_nil
  | cons x xs ih =>
    rw [collapseRuns_cons]
    split_ifs with hc
    · exact ih
    · refine List.chain'_cons'.mpr ⟨?_, ih⟩
      intro y hy hxy
      exact hc ⟨hxy.1, by rw [Option.mem_def] at hy; rw [hy, hxy.2]⟩

lemma chain'_dropWhile {R : Char → Char → Prop} {p : Char → Bool} :
    ∀ {l : Str}, l.Chain' R → (l.dropWhile p).Chain' R := by
  intro l
  induction l with
  | nil => intro h; exact h
  | cons x xs ih =>
    intro h
    rw [List.dropWhile_cons]
    split_ifs
    · exact ih (List.chain'_cons'.mp h).2
    · exact h

lemma chain'_dropTrailing {R : Char → Char → Prop} {p : Char → Bool} {l : Str}
    (h : l.Chain' R) : (dropTrailing p l).Chain' R := by
  obtain ⟨t, ht⟩ := dropTrailing_append p l
  rw [← ht] at h
  exact (List.chain'_append.mp h).1

lemma trimBy_noDD {p : Char → Bool} {l : Str} (h : NoDD l) : NoDD (trimBy p l) :=
  chain'_dropTrailing (chain'_dropWhile h)

lemma dropWhile_head_false {p : Char → Bool} :
    ∀ {l : Str} {c : Char} {rest : Str}, l.dropWhile p = c :: rest → p c = false := by
  intro l
  induction l with
  | nil => intro c rest h; cases h
  | cons x xs ih =>
    intro c rest h
    rw [List.dropWhile_cons] at h
    split_ifs at h with hp
    · exact ih h
    · cases h
      simpa using hp

lemma trimBy_head_false {p : Char → Bool} {l : Str} {c : Char} {rest : Str}
    (h : trimBy p l = c :: rest) : p c = false := by
  obtain ⟨t, ht⟩ := dropTrailing_append p (l.dropWhile p)
  have : l.dropWhile p = c :: (rest ++ t) := by
    rw [← ht, show dropTrailing p (l.dropWhile p) = c :: rest from h, List.cons_append]
  exact dropWhile_head_false this

lemma dropTrailing_cons (p : Char → Bool) (x : Char) (xs : Str) :
    dropTrailing p (x :: xs) =
      if p x ∧ dropTrailing p xs = [] then [] else x :: dropTrailing p xs := rfl

lemma dropTrailing_getLast_false {p : Char → Bool} :
    ∀ {l : Str} {c : Char}, (dropTrailing p l).getLast? = some c → p c = false := by
  intro l
  induction l with
  | nil => intro c h; cases h
  | cons x xs ih =>
    intro c h
    rw [dropTrailing_cons] at h
    split_ifs at h with hc
    · cases h
    · cases hxs : dropTrailing p xs with
      | nil =>
        rw [hxs] at h
        simp only [List.getLast?_singleton] at h
        rcases Option.some_inj.mp h with rfl
        have hx : ¬ p x = true := fun hp => hc ⟨hp, hxs⟩
        simpa using hx
      | cons y ys =>
        rw [hxs, List.getLast?_cons_cons] at h
        exact ih (hxs ▸ h)

lemma dropWhile_eq_self {p : Char → Bool} {l : Str}
    (h : ∀ c, l.head? = some c → p c = false) : l.dropWhile p = l := by
  cases l with
  | nil => rfl
  | cons x xs =>
    rw [List.dropWhile_cons, h x rfl]
    simp

lemma dropTrailing_eq_self {p : Char → Bool} :
    ∀ {l : Str}, (∀ c, l.getLast? = some c → p c = false) → dropTrailing p l = l := by
  intro l
  induction l with
  | nil => intro _; rfl
  | cons x xs ih =>
    intro h
    rw [dropTrailing_cons]
    by_cases hxs : xs = []
    · subst hxs
      rw [if_neg]
      · rfl
      · intro hc
        have hx := h x (by simp)
        rw [hc.1] at hx
        cases hx
    · have htail : dropTrailing p xs = xs := by
        apply ih
        intro c hc
        apply h
        cases xs with
        | nil => exact absurd rfl hxs
        | cons y ys =>
          rw [List.getLast?_cons_cons]
          exact hc
      rw [if_neg]
      · rw [htail]
      · intro hcond
        exact hxs (htail ▸ hcond.2)

lemma collapseRuns_eq_self : ∀ {l : Str}, NoDD l → collapseRuns '-' l = l := by
  intro l
  induction l with
  | nil => intro _; rfl
  | cons x xs ih =>
    intro h
    have hxs : collapseRuns '-' xs = xs := ih (List.chain'_cons'.mp h).2
    rw [collapseRuns_cons, hxs]
    rw [if_neg]
    intro hc
    exact (List.chain'_cons'.mp h).1 '-' (Option.mem_def.mpr hc.2) ⟨hc.1, rfl⟩

lemma splitByAux_single {p : Char → Bool} :
    ∀ {l : Str}, l ≠ [] → (∀ c ∈ l, p c = false) → splitByAux p l = [l] := by
  intro l
  induction l with
  | nil => intro h; exact absurd rfl h
  | cons x xs ih =>
    intro _ h
    rw [splitByAux_cons, if_neg (by rw [h x (List.mem_cons_self x xs)]; exact Bool.false_ne_true)]
    by_cases hxs : xs = []
    · subst hxs
      rfl
    · rw [ih hxs (fun c hc => h c (List.mem_cons_of_mem x hc))]

lemma splitBy_single {p : Char → Bool} {l : Str} (h1 : l ≠ [])
    (h2 : ∀ c ∈ l, p c = false) : splitBy p l = [l] := by
  unfold splitBy
  rw [splitByAux_single h1 h2]
  simp [h1]

end C7ChainLemmas

section C7Kebab

lemma kebabize_chars {s : Str} {c : Char} (hc : c ∈ kebabize s) : isKeepT c = true := by
  have hc2 : c ∈ joinHyphen (splitBy isWsC
      (((s.map toLowerJS).map (fun c => if isKeepT c || isWsC c then c else ' ')).map
        (fun c => if c = '_' then ' ' else c))) :=
    mem_collapseRuns (mem_trimBy hc)
  rcases mem_joinHyphen hc2 with ⟨w, hw, hcw⟩ | rfl
  · obtain ⟨hmem, hws⟩ := splitBy_chars hw c hcw
    rcases List.mem_map.mp hmem with ⟨r, hr, rfl⟩
    by_cases hru : r = '_'
    · rw [if_pos hru] at hws
      cases hws
    · rw [if_neg hru] at hws ⊢
      rcases List.mem_map.mp hr with ⟨r0, _, rfl⟩
      by_cases hk : isKeepT r0 || isWsC r0
      · rw [if_pos hk] at hws ⊢
        have hk2 : isKeepT r0 = true ∨ isWsC r0 = true := by simpa using hk
        rcases hk2 with hk2 | hk2
        · exact hk2
        · rw [hk2] at hws
          cases hws
      · rw [if_neg hk] at hws
        cases hws
  · exact hyphen_keep

lemma kebabize_noDD (s : Str) : NoDD (kebabize s) :=
  trimBy_noDD (collapseRuns_noDD _)

lemma kebabize_head {s : Str} {c : Char} {rest : Str} (h : kebabize s = c :: rest) :
    c ≠ '-' := by
  have h2 : trimBy (fun c => c = '-') (collapseRuns '-' (joinHyphen (splitBy isWsC
      (((s.map toLowerJS).map (fun c => if isKeepT c || isWsC c then c else ' ')).map
        (fun c => if c = '_' then ' ' else c))))) = c :: rest := h
  exact of_decide_eq_false (trimBy_head_false h2)

lemma kebabize_last {s : Str} {c : Char} (h : (kebabize s).getLast? = some c) : c ≠ '-' :=
  of_decide_eq_false (dropTrailing_getLast_false h)

lemma kebabize_fix {o : Str} (hk : ∀ c ∈ o, isKeepT c = true) (hdd : NoDD o)
    (hh : ∀ c rest, o = c :: rest → c ≠ '-') (hl : ∀ c, o.getLast? = some c → c ≠ '-') :
    kebabize o = o := by
  by_cases ho : o = []
  · subst ho
    rfl
  · have h1 : o.map toLowerJS = o := map_id_of (fun c hc => toLowerJS_keep (hk c hc))
    have h2 : (o.map toLowerJS).map (fun c => if isKeepT c || isWsC c then c else ' ') = o := by
      rw [h1]
      exact map_id_of (fun c hc => keepMap_keep (hk c hc))
    have h3 : ((o.map toLowerJS).map (fun c => if isKeepT c || isWsC c then c else ' ')).map
        (fun c => if c = '_' then ' ' else c) = o := by
      rw [h2]
      exact map_id_of (fun c hc => underscoreMap_keep (hk c hc))
    show trimBy (fun c => c = '-') (collapseRuns '-' (joinHyphen (splitBy isWsC _))) = o
    rw [h3, splitBy_single ho (fun c hc => isWsC_keep (hk c hc))]
    show trimBy (fun c => c = '-') (collapseRuns '-' o) = o
    rw [collapseRuns_eq_self hdd]
    show dropTrailing _ (o.dropWhile _) = o
    have hhead : ∀ c, o.head? = some c → decide (c = '-') = false := by
      intro c hc
      cases o with
      | nil => cases hc
      | cons x xs =>
        rcases Option.some_inj.mp hc with rfl
        exact decide_eq_false (hh x xs rfl)
    rw [dropWhile_eq_self hhead]
    apply dropTrailing_eq_self
    intro c hc
    exact decide_eq_false (hl c hc)

lemma kebabize_idem (s : Str) : kebabize (kebabize s) = kebabize s := by
  by_cases ho : kebabize s = []
  · rw [ho]
    rfl
  · exact kebabize_fix (fun c hc => kebabize_chars hc) (kebabize_noDD s)
      (fun c rest hcr => kebabize_head hcr) (fun c hc => kebabize_last hc)

end C7Kebab

section C7NormTags

lemma assocGet_mem : ∀ {m : List (Str × Str)} {u v : Str}, assocGet m u = some v →
    v ∈ m.map Prod.snd := by
  intro m
  induction m with
  | nil => intro u v h; cases h
  | cons p r ih =>
    intro u v h
    obtain ⟨k, w⟩ := p
    unfold assocGet at h
    split_ifs at h with hk
    · rcases Option.some_inj.mp h with rfl
      exact List.mem_cons_self _ _
    · exact List.mem_cons_of_mem _ (ih h)

lemma canonicalize_image {u v : Str} (h : assocGet CANON_MAP u = some v)
    (hv : v ≠ ['n', 'e', 'x', 't', '.', 'j', 's']) :
    kebabize v = v ∧ canonicalize v = v ∧ ¬ 3 < tagWords v ∧ v ≠ [] := by
  have hmem := assocGet_mem h
  simp only [CANON_MAP, List.map_cons, List.map_nil, List.mem_cons,
    List.not_mem_nil, or_false] at hmem
  rcases hmem with rfl | rfl | rfl | rfl | rfl | rfl | rfl | rfl
  · exact ⟨by decide, by decide, by decide, by decide⟩
  · exact ⟨by decide, by decide, by decide, by decide⟩
  · exact ⟨by decide, by decide, by decide, by decide⟩
  · exact ⟨by decide, by decide, by decide, by decide⟩
  · exact ⟨by decide, by decide, by decide, by decide⟩
  · exact ⟨by decide, by decide, by decide, by decide⟩
  · exact absurd rfl hv
  · exact ⟨by decide, by decide, by decide, by decide⟩

lemma normTagsGo_cons (t : Str) (ts seen : List Str) :
    normTagsGo (t :: ts) seen =
      if kebabize t = [] then normTagsGo ts seen
      else if 3 < tagWords (kebabize t) then normTagsGo ts seen
      else if canonicalize (kebabize t) ∈ STOPLIST then normTagsGo ts seen
      else if canonicalize (kebabize t) ∈ seen then normTagsGo ts seen
      else canonicalize (kebabize t) :: normTagsGo ts (canonicalize (kebabize t) :: seen) := rfl

lemma normTagsGo_inv : ∀ (ts seen : List Str),
    (∀ s ∈ normTagsGo ts seen,
      (∃ t, s = canonicalize (kebabize t) ∧ kebabize t ≠ [] ∧ ¬ 3 < tagWords (kebabize t)) ∧
        s ∉ STOPLIST ∧ s ∉ seen) ∧
    (normTagsGo ts seen).Nodup := by
  intro ts
  induction ts with
  | nil =>
    intro seen
    exact ⟨fun s hs => absurd hs (List.not_mem_nil s), List.nodup_nil⟩
  | cons t ts ih =>
    intro seen
    rw [normTagsGo_cons]
    split_ifs with h1 h2 h3 h4
    · exact ih seen
    · exact ih seen
    · exact ih seen
    · exact ih seen
    · constructor
      · intro s hs
        rcases List.mem_cons.mp hs with rfl | hs
        · exact ⟨⟨t, rfl, h1, h2⟩, h3, h4⟩
        · obtain ⟨he, hst, hseen⟩ := (ih (canonicalize (kebabize t) :: seen)).1 s hs
          exact ⟨he, hst, fun hc => hseen (List.mem_cons_of_mem _ hc)⟩
      · refine List.nodup_cons.mpr ⟨?_, (ih (canonicalize (kebabize t) :: seen)).2⟩
        intro hc
        exact ((ih (canonicalize (kebabize t) :: seen)).1 _ hc).2.2 (List.mem_cons_self _ _)

lemma normTagsGo_fix : ∀ (l seen : List Str),
    (∀ s ∈ l, kebabize s = s ∧ canonicalize s = s ∧ s ∉ STOPLIST ∧ s ≠ [] ∧
      ¬ 3 < tagWords s) →
    l.Nodup → (∀ s ∈ l, s ∉ seen) → normTagsGo l seen = l := by
  intro l
  induction l with
  | nil => intro seen _ _ _; rfl
  | cons s l ih =>
    intro seen hp hnd hseen
    obtain ⟨hk, hcan, hst, hne, hwc⟩ := hp s (List.mem_cons_self s l)
    rw [normTagsGo_cons, hk, hcan, if_neg hne, if_neg hwc, if_neg hst,
      if_neg (hseen s (List.mem_cons_self s l))]
    congr 1
    apply ih
    · exact fun x hx => hp x (List.mem_cons_of_mem s hx)
    · exact (List.nodup_cons.mp hnd).2
    · intro x hx hc
      rcases List.mem_cons.mp hc with rfl | hc
      · exact (List.nodup_cons.mp hnd).1 hx
      · exact hseen x (List.mem_cons_of_mem s hx) hc

lemma out_elem_fix {s : Str}
    (he : ∃ t, s = canonicalize (kebabize t) ∧ kebabize t ≠ [] ∧ ¬ 3 < tagWords (kebabize t))
    (hnx : s ≠ ['n', 'e', 'x', 't', '.', 'j', 's']) :
    kebabize s = s ∧ canonicalize s = s ∧ s ≠ [] ∧ ¬ 3 < tagWords s := by
  obtain ⟨t, rfl, hne, hwc⟩ := he
  cases hc : assocGet CANON_MAP (kebabize t) with
  | none =>
    have hs : canonicalize (kebabize t) = kebabize t := by
      unfold canonicalize
      rw [hc]
    rw [hs]
    exact ⟨kebabize_idem t, hs, hne, hwc⟩
  | some v =>
    have hs : canonicalize (kebabize t) = v := by
      unfold canonicalize
      rw [hc]
    rw [hs] at hnx ⊢
    obtain ⟨h1, h2, h3, h4⟩ := canonicalize_image hc hnx
    exact ⟨h1, h2, h4, h3⟩

end C7NormTags

/-- C7 is false as stated: the canonical-synonym table rewrites `nextjs` to
`next.js`, whose dot does not survive a second kebab-case normalization, so
normalizing twice yields `next-js` instead. -/
theorem C7_counterexample :
    normalizeTags [['n', 'e', 'x', 't', 'j', 's']] = [['n', 'e', 'x', 't', '.', 'j', 's']] ∧
    normalizeTags [['n', 'e', 'x', 't', '.', 'j', 's']] = [['n', 'e', 'x', 't', '-', 'j', 's']] ∧
    normalizeTags (normalizeTags [['n', 'e', 'x', 't', 'j', 's']]) ≠
      normalizeTags [['n', 'e', 'x', 't', 'j', 's']] := by
  refine ⟨by decide, by decide, by decide⟩

/-- C7 amended: the tag-normalization pipeline is idempotent on every tag
list whose normalization does not contain `next.js` — the only
canonical-synonym image that is not itself in normalized form. For such
lists, `normalizeTags (normalizeTags ts) = normalizeTags ts`. -/
theorem C7_normalizeTags_idem (ts : List Str)
    (h : (['n', 'e', 'x', 't', '.', 'j', 's'] : Str) ∉ normalizeTags ts) :
    normalizeTags (normalizeTags ts) = normalizeTags ts := by
  unfold normalizeTags at h ⊢
  have hfix : normTagsGo ((normTagsGo ts []).take 10) [] = (normTagsGo ts []).take 10 := by
    apply normTagsGo_fix
    · intro s hs
      have hmem : s ∈ normTagsGo ts [] := List.take_subset 10 _ hs
      obtain ⟨he, hst, -⟩ := (normTagsGo_inv ts []).1 s hmem
      have hnx : s ≠ ['n', 'e', 'x', 't', '.', 'j', 's'] := fun hc => h (hc ▸ hs)
      obtain ⟨h1, h2, h3, h4⟩ := out_elem_fix he hnx
      exact ⟨h1, h2, hst, h3, h4⟩
    · exact (List.take_sublist 10 _).nodup (normTagsGo_inv ts []).2
    · exact fun s _ => List.not_mem_nil s
  rw [hfix, List.take_take]
  norm_num

/-- Witness for C7 amended: a list whose normalization (`javascript`) is a
fixed point. -/
theorem C7_witness :
    (['n', 'e', 'x', 't', '.', 'j', 's'] : Str) ∉ normalizeTags [['j', 's']] ∧
    normalizeTags (normalizeTags [['j', 's']]) = normalizeTags [['j', 's']] :=
  ⟨by decide, C7_normalizeTags_idem [['j', 's']] (by decide)⟩

/-- Witness for C4 amended at concrete inputs. -/
theorem C4_witness :
    (computeFeatureScores c4InputMean).semantic = 0 ∧
    (0 ≤ (computeFeatureScores c4InputHalf).semantic ∧
      (computeFeatureScores c4InputHalf).semantic ≤ 1) :=
  ⟨(C4_featureScores_bounds c4InputMean).1 rfl,
    (C4_featureScores_bounds c4InputHalf).2.2.2.2.2.2
      (fun x hx => by
        rcases List.mem_singleton.mp hx with rfl
        norm_num)⟩

end Skx
